import Mathlib

/-!
Shallow embedding of the `halton` crate (`src/lib.rs`).

Modelling conventions:
* The position integer type (`usize`) is modelled as `Nat` together with an
  explicit width bound `2 ^ 64`; the `checked_*` operations return `Option Nat`
  exactly as in the source.
* The digit integer type `I` is modelled as `Nat` (the default `Sequence` uses
  `u16`; every digit stored is `< base`, so the `I::try_from(...).unwrap()`
  conversions in the source never fail for representable bases and are dropped).
* The value type `F` (default `f64`) is modelled as `ℚ`: the source performs
  only additions and divisions, which we interpret exactly.  Decimal constants
  quoted from the source tests are the shortest round-trip prints of the
  corresponding exact values.
* Rust panics (index out of bounds, division by zero, arithmetic overflow in
  debug builds) are modelled as `none` of an `Option` result.
* Loops whose termination depends on `base ≥ 2` carry either an explicit fuel
  argument bounded exactly as the corresponding Rust loop is (by the array
  length), or a guard making the function total; every guard is commented at
  its definition site.  All theorems assume `2 ≤ base` as the spec does.
-/

set_option linter.unusedVariables false

namespace Halton

/-- Width bound of `usize` (64-bit). -/
def USIZE : Nat := 2 ^ 64

/-- Model of `usize::checked_add`. -/
def checkedAdd (a c : Nat) : Option Nat := if a + c < USIZE then some (a + c) else none

/-- Model of `usize::checked_mul`. -/
def checkedMul (a c : Nat) : Option Nat := if a * c < USIZE then some (a * c) else none

/-- Model of `usize::checked_pow` (exact: `some` iff the result fits). -/
def checkedPow (a e : Nat) : Option Nat := if a ^ e < USIZE then some (a ^ e) else none

/-- The state of `GenericSequence<I, F, D>`: base `b`, digit array `d` of
length `D`, partial-sum cache `r` of length `D`.  `D` is recovered as
`d.length`. -/
structure GenericSequence where
  b : Nat
  d : List Nat
  r : List ℚ
deriving DecidableEq

/-- `GenericSequence::new` (src/lib.rs:161-167): no validation of the base,
digits and cache all zero. -/
def new (D : Nat) (base : Nat) : GenericSequence :=
  ⟨base, List.replicate D 0, List.replicate D 0⟩

/-- The `try_fold` loop of `GenericSequence::pos` (src/lib.rs:169-175).
The source zips the digits with `1..`, so digit `d[i]` is weighted by `i + 1`
(the accumulator starts at `i = 1`). -/
def posLoop : List Nat → Nat → Nat → Option Nat
  | [], _, acc => some acc
  | v :: rest, i, acc =>
    match checkedMul v i with
    | none => none
    | some m =>
      match checkedAdd acc m with
      | none => none
      | some acc2 => posLoop rest (i + 1) acc2

/-- `GenericSequence::pos` (src/lib.rs:169-175). -/
def pos (s : GenericSequence) : Option Nat := posLoop s.d 1 0

/-- `GenericSequence::max` (src/lib.rs:177-181):
`b.checked_pow(D).map(|v| v - 1)` guarded by `u32::try_from(D)`. -/
def max (s : GenericSequence) : Option Nat :=
  if s.d.length < 2 ^ 32 then (checkedPow s.b s.d.length).map (fun v => v - 1) else none

/-- `GenericSequence::remaining` (src/lib.rs:183-185): `max? - pos?`
(`Nat` subtraction; for every state of interest `pos ≤ max`). -/
def remaining (s : GenericSequence) : Option Nat :=
  match max s, pos s with
  | some m, some p => some (m - p)
  | _, _ => none

/-- The carry `while` loop inside `next` (src/lib.rs:203-210), entered with
`d[l] = b` known.  Body: `d[l] = 0; l += 1; if l == len return None; d[l] += 1`,
then the condition `d[l] == b` is re-checked.  The fuel argument bounds the
iteration count exactly as the `return` at `l == len` bounds the Rust loop: the
loop can run at most `d.length` times, and `next` passes `d.length` as fuel.
Returns the mutated digits together with `some l` (exit level) or `none`
(exhaustion return). -/
def carryLoop (b : Nat) : List Nat → Nat → Nat → List Nat × Option Nat
  | d, _, 0 => (d, none)
  | d, l, fuel + 1 =>
    let d1 := d.set l 0
    if l + 1 = d1.length then (d1, none)
    else
      let d2 := d1.set (l + 1) (d1.getD (l + 1) 0 + 1)
      if d2.getD (l + 1) 0 = b then carryLoop b d2 (l + 1) fuel
      else (d2, some (l + 1))

/-- The cache back-propagation loop `for i in (1..l).rev() { r[i-1] = r[i]/b }`
inside `next` (src/lib.rs:212-214).  The argument is the loop variable `i`,
counting down; `rprop b r c` performs the body for `i = c, c-1, …, 1`. -/
def rprop (b : Nat) : List ℚ → Nat → List ℚ
  | r, 0 => r
  | r, c + 1 => rprop b (r.set c (r.getD (c + 1) 0 / (b : ℚ))) c

/-- `Iterator::next` for `GenericSequence` (src/lib.rs:198-219), returning the
produced value together with the successor state. -/
def next (s : GenericSequence) : Option ℚ × GenericSequence :=
  let d1 := s.d.set 0 (s.d.getD 0 0 + 1)
  if d1.getD 0 0 = s.b then
    match carryLoop s.b d1 0 d1.length with
    | (d2, none) => (none, ⟨s.b, d2, s.r⟩)
    | (d2, some l) =>
      let r1 := s.r.set (l - 1) (((d2.getD l 0 : ℚ) + s.r.getD l 0) / (s.b : ℚ))
      let r2 := rprop s.b r1 (l - 1)
      (some (r2.getD 0 0 / (s.b : ℚ)), ⟨s.b, d2, r2⟩)
  else
    (some (((d1.getD 0 0 : ℚ) + s.r.getD 0 0) / (s.b : ℚ)), ⟨s.b, d1, s.r⟩)

/-- The sequential fallback loop of `nth` (src/lib.rs:267-273):
`for x in self { if n == 0 { return Some(x) } n -= 1 }; None`.
`stepN s n` returns the `(n+1)`-th `next` result (and the state after the last
call made), stopping early at the first exhausted `next`. -/
def stepN (s : GenericSequence) : Nat → Option ℚ × GenericSequence
  | 0 => next s
  | n + 1 =>
    match next s with
    | (none, s1) => (none, s1)
    | (some _, s1) => stepN s1 n

/-- The digit-decomposition loop of `nth`'s direct path (src/lib.rs:254-260):
`while n >= b { d[last] = n % b; last += 1; n /= b }; d[last] = n`.
`none` models a panic: division by zero when `b = 0`, or the out-of-bounds
write `d[last]` when the target needs more than `d.length` digits.  Each
iteration increments `last`, so `d.length + 1` fuel (what `nth` passes) can
never be exhausted before a result or a panic. -/
def decompLoop (b : Nat) : List Nat → Nat → Nat → Nat → Option (List Nat)
  | _, _, _, 0 => none
  | d, n, last, fuel + 1 =>
    if b ≤ n then
      if b = 0 then none
      else if d.length ≤ last then none
      else decompLoop b (d.set last (n % b)) (n / b) (last + 1) fuel
    else
      if d.length ≤ last then none
      else some (d.set last n)

/-- The cache rebuild loop of `nth`'s direct path (src/lib.rs:261-263):
`for i in (1..r.len()).rev() { r[i-1] = (d[i] + r[i]) / b }`.  The argument is
the loop variable `i`, counting down from `r.length - 1` to `1`. -/
def rebuild (b : Nat) (d : List Nat) : List ℚ → Nat → List ℚ
  | r, 0 => r
  | r, i + 1 =>
    rebuild b d (r.set i (((d.getD (i + 1) 0 : ℚ) + r.getD (i + 1) 0) / (b : ℚ))) i

/-- `Iterator::nth` for `GenericSequence` (src/lib.rs:249-274).  Outer `none`
models a panic inside the direct path; `some (v?, s)` is a normal return with
Rust result `v?` and final state `s`. -/
def nth (s : GenericSequence) (n : Nat) : Option (Option ℚ × GenericSequence) :=
  if 50 < n then
    match (pos s).bind (fun p => checkedAdd n p) with
    | some t =>
      let d0 : List Nat := List.replicate s.d.length 0
      let r0 : List ℚ := List.replicate s.r.length 0
      match decompLoop s.b d0 t 0 (s.d.length + 1) with
      | none => none
      | some d2 =>
        let r2 := rebuild s.b d2 r0 (r0.length - 1)
        some (next ⟨s.b, d2, r2⟩)
    | none => some (stepN s n)
  else some (stepN s n)

/-- `Iterator::count` (src/lib.rs:231-237): `remaining`, with `none` modelling
the `panic!("attempt to add with overflow")` branch. -/
def count (s : GenericSequence) : Option Nat := remaining s

/-- The `fold` in `Iterator::last`'s fallback branch (src/lib.rs:244): iterate
`next` keeping the most recent value.  Fueled; for `2 ≤ b` the iteration
exhausts within `b ^ d.length` calls (proved below), which is the fuel `last`
passes. -/
def foldLast : GenericSequence → Option ℚ → Nat → Option ℚ
  | _, acc, 0 => acc
  | s, acc, fuel + 1 =>
    match next s with
    | (none, _) => acc
    | (some x, s1) => foldLast s1 (some x) fuel

/-- `Iterator::last` (src/lib.rs:240-246).  `none` models the debug-build
overflow panic of `remaining - 1` at `remaining = 0`, or a panic inside `nth`. -/
def last (s : GenericSequence) : Option (Option ℚ) :=
  match remaining s with
  | some rem => if rem = 0 then none else (nth s (rem - 1)).map Prod.fst
  | none => some (foldLast s none (s.b ^ s.d.length))

/-- `number` (src/lib.rs:79-88), the direct radical-inverse loop:
`while index > 0 { factor /= b; result += factor * (index % b); index /= b }`.
For `base < 2` the source loop diverges (`b = 1`) or panics (`b = 0`); the
guard below returns the accumulator instead so the function is total — every
theorem about it assumes `2 ≤ base`. -/
def numberLoop (b : Nat) (index : Nat) (factor result : ℚ) : ℚ :=
  if h : 2 ≤ b ∧ index ≠ 0 then
    numberLoop b (index / b) (factor / b) (result + factor / (b : ℚ) * ((index % b : Nat) : ℚ))
  else result
termination_by index
decreasing_by exact Nat.div_lt_self (Nat.pos_of_ne_zero h.2) h.1

/-- `number base index` (src/lib.rs:79-88). -/
def number (b : Nat) (index : Nat) : ℚ := numberLoop b index 1 0

/-- Fueled variant of the `number` loop, used to state that the loop
terminates within `index` iterations. -/
def numberFuel (b : Nat) : Nat → Nat → ℚ → ℚ → ℚ
  | 0, _, _, result => result
  | fuel + 1, index, factor, result =>
    if index = 0 then result
    else numberFuel b fuel (index / b) (factor / b) (result + factor / (b : ℚ) * ((index % b : Nat) : ℚ))

/-! ## Specification-side functions (mathematical, not from the source) -/

/-- Radical inverse of `k` in base `b` (the mathematical value `number`
computes): `radInv b k = (k % b + radInv b (k / b)) / b`, `radInv b 0 = 0`. -/
def radInv (b : Nat) (k : Nat) : ℚ :=
  if h : 2 ≤ b ∧ k ≠ 0 then (((k % b : Nat) : ℚ) + radInv b (k / b)) / (b : ℚ) else 0
termination_by k
decreasing_by exact Nat.div_lt_self (Nat.pos_of_ne_zero h.2) h.1

/-- The `D` base-`b` digits of `k`, least significant first. -/
def digitsOf (b : Nat) : Nat → Nat → List Nat
  | 0, _ => []
  | D + 1, k => k % b :: digitsOf b D (k / b)

/-- The partial-sum cache matching index `k`: entry `i` is
`radInv b (k / b ^ (i + 1))`. -/
def rlist (b : Nat) : Nat → Nat → List ℚ
  | 0, _ => []
  | D + 1, k => radInv b (k / b) :: rlist b D (k / b)

/-- The generator state representing index `k`. -/
def mkState (b D k : Nat) : GenericSequence := ⟨b, digitsOf b D k, rlist b D k⟩

/-- Carry length: how many of the `D` low digits of `k` equal `b - 1`. -/
def clen (b : Nat) : Nat → Nat → Nat
  | 0, _ => 0
  | D + 1, k => if k % b = b - 1 then clen b D (k / b) + 1 else 0

/-! ## Reachability relations -/

/-- States reachable through constructor, `next`, and non-panicking `nth`
calls, whatever they return. -/
inductive Reach (D b : Nat) : GenericSequence → Prop
  | base : Reach D b (new D b)
  | step : ∀ {s}, Reach D b s → Reach D b (next s).2
  | jump : ∀ {s n p}, Reach D b s → nth s n = some p → Reach D b p.2

/-- States reachable through constructor and value-returning `next` / `nth`
calls only. -/
inductive ReachOk (D b : Nat) : GenericSequence → Prop
  | base : ReachOk D b (new D b)
  | step : ∀ {s v s1}, ReachOk D b s → next s = (some v, s1) → ReachOk D b s1
  | jump : ∀ {s n v s1}, ReachOk D b s → nth s n = some (some v, s1) → ReachOk D b s1

/-! ## Concrete states used by the scenario checks -/

/-- `Sequence::new(2)`: the default base-2 sequence (`D = 20`). -/
def fresh2 : GenericSequence := new 20 2

/-- `Sequence::new(3)`: the default base-3 sequence (`D = 20`). -/
def fresh3 : GenericSequence := new 20 3

/-- The state after `n` leading `next()` calls. -/
def iterState (s : GenericSequence) : Nat → GenericSequence
  | 0 => s
  | n + 1 => (next (iterState s n)).2

/-- The state reached by `seq.nth(1048574)` on a fresh base-2 sequence
(the scenario of the test `sequence_nth_last`): position `2^20 - 1`. -/
def atMax : GenericSequence := ((nth fresh2 1048574).getD (none, fresh2)).2

/-- The state immediately after the exhaustion signal. -/
def afterExhaust : GenericSequence := (next atMax).2

/-! ## List access helpers -/

theorem getD_set_self {α} (d0 v : α) : ∀ (xs : List α) (i : Nat), i < xs.length →
    (xs.set i v).getD i d0 = v
  | x :: xs, 0, _ => rfl
  | x :: xs, i + 1, h => getD_set_self d0 v xs i (Nat.lt_of_succ_lt_succ h)

theorem getD_set_ne {α} (d0 v : α) : ∀ (xs : List α) (i j : Nat), i ≠ j →
    (xs.set i v).getD j d0 = xs.getD j d0
  | [], _, _, _ => rfl
  | x :: xs, 0, 0, h => absurd rfl h
  | x :: xs, 0, j + 1, _ => rfl
  | x :: xs, i + 1, 0, _ => rfl
  | x :: xs, i + 1, j + 1, h =>
    getD_set_ne d0 v xs i j (fun hc => h (congrArg Nat.succ hc))

theorem getD_replicate {α} (d0 a : α) : ∀ (n i : Nat), i < n →
    (List.replicate n a).getD i d0 = a
  | n + 1, 0, _ => rfl
  | n + 1, i + 1, h => getD_replicate d0 a n i (Nat.lt_of_succ_lt_succ h)

theorem set_append_cons {α} (v : α) :
    ∀ (pre : List α) (y : α) (rest : List α),
      (pre ++ y :: rest).set pre.length v = pre ++ v :: rest
  | [], _, _ => rfl
  | p :: pre, y, rest => congrArg (p :: ·) (set_append_cons v pre y rest)

theorem getD_append_cons {α} (d0 : α) :
    ∀ (pre : List α) (y : α) (rest : List α),
      (pre ++ y :: rest).getD pre.length d0 = y
  | [], _, _ => rfl
  | p :: pre, y, rest => getD_append_cons d0 pre y rest

theorem getD_append_lt {α} (d0 : α) :
    ∀ (pre suf : List α) (i : Nat), i < pre.length →
      (pre ++ suf).getD i d0 = pre.getD i d0
  | p :: pre, suf, 0, _ => rfl
  | p :: pre, suf, i + 1, h => getD_append_lt d0 pre suf i (Nat.lt_of_succ_lt_succ h)

theorem getD_append_ge {α} (d0 : α) :
    ∀ (pre suf : List α) (i : Nat), pre.length ≤ i →
      (pre ++ suf).getD i d0 = suf.getD (i - pre.length) d0
  | [], suf, i, _ => by simp
  | p :: pre, suf, i + 1, h => by
    have := getD_append_ge d0 pre suf i (Nat.le_of_succ_le_succ h)
    simpa [List.getD] using this

theorem replicate_succ_append {α} (a : α) (l : Nat) (xs : List α) :
    List.replicate (l + 1) a ++ xs = List.replicate l a ++ a :: xs := by
  rw [List.replicate_succ', List.append_assoc]
  rfl

theorem list_ext_getD {α} (d0 : α) : ∀ (xs ys : List α), xs.length = ys.length →
    (∀ i, xs.getD i d0 = ys.getD i d0) → xs = ys
  | [], [], _, _ => rfl
  | x :: xs, y :: ys, hl, h => by
    have h0 := h 0
    simp only [List.getD_cons_zero] at h0
    cases h0
    exact congrArg (x :: ·) (list_ext_getD d0 xs ys (Nat.succ_injective hl)
      (fun i => h (i + 1)))

/-! ## Arithmetic helpers -/

theorem succ_div_eq (A b : Nat) (hb : 2 ≤ b) (h : A % b + 1 < b) :
    (A + 1) / b = A / b ∧ (A + 1) % b = A % b + 1 := by
  have hb0 : 0 < b := by omega
  have hd := Nat.div_add_mod A b
  have hA : A + 1 = A % b + 1 + b * (A / b) := by omega
  constructor
  · rw [hA, Nat.add_mul_div_left _ _ hb0, Nat.div_eq_of_lt h, Nat.zero_add]
  · rw [hA, Nat.add_mul_mod_self_left, Nat.mod_eq_of_lt h]

theorem succ_div_pow_eq (A b : Nat) (hb : 2 ≤ b) (h : A % b + 1 < b) :
    ∀ j, 1 ≤ j → (A + 1) / b ^ j = A / b ^ j
  | 1, _ => by simpa using (succ_div_eq A b hb h).1
  | j + 2, _ => by
    have h1 : (A + 1) / b ^ (j + 1) = A / b ^ (j + 1) :=
      succ_div_pow_eq A b hb h (j + 1) (Nat.le_add_left 1 j)
    calc (A + 1) / b ^ (j + 2) = (A + 1) / b ^ (j + 1) / b := by
          rw [Nat.div_div_eq_div_mul, ← pow_succ]
      _ = A / b ^ (j + 1) / b := by rw [h1]
      _ = A / b ^ (j + 2) := by rw [Nat.div_div_eq_div_mul, ← pow_succ]

/-! ## radInv lemmas -/

theorem radInv_zero (b : Nat) : radInv b 0 = 0 := by
  rw [radInv]; simp

theorem radInv_eq (b k : Nat) (hb : 2 ≤ b) :
    radInv b k = (((k % b : Nat) : ℚ) + radInv b (k / b)) / (b : ℚ) := by
  by_cases hk : k = 0
  · subst hk
    rw [radInv_zero, Nat.zero_mod, Nat.zero_div, radInv_zero]
    simp
  · rw [radInv]
    simp [hb, hk]

theorem radInv_mul_pow (b t : Nat) (hb : 2 ≤ b) :
    ∀ j, radInv b (t * b ^ j) = radInv b t / (b : ℚ) ^ j
  | 0 => by simp
  | j + 1 => by
    have hb0 : 0 < b := by omega
    have hmul : t * b ^ (j + 1) = t * b ^ j * b := by ring
    have hmod : t * b ^ (j + 1) % b = 0 := by rw [hmul]; exact Nat.mul_mod_left _ b
    have hdiv : t * b ^ (j + 1) / b = t * b ^ j := by
      rw [hmul]; exact Nat.mul_div_cancel _ hb0
    rw [radInv_eq b _ hb, hmod, hdiv, radInv_mul_pow b t hb j]
    push_cast
    rw [zero_add, div_div, ← pow_succ]

theorem radInv_nonneg (b : Nat) (hb : 2 ≤ b) : ∀ k, 0 ≤ radInv b k := by
  intro k
  induction k using Nat.strong_induction_on with
  | _ k ih =>
    by_cases hk : k = 0
    · subst hk; rw [radInv_zero]
    · rw [radInv_eq b k hb]
      have hb0 : (0:ℚ) < (b : ℚ) := by exact_mod_cast (by omega : 0 < b)
      have h1 : 0 ≤ radInv b (k / b) :=
        ih (k / b) (Nat.div_lt_self (Nat.pos_of_ne_zero hk) hb)
      have h2 : (0:ℚ) ≤ ((k % b : Nat) : ℚ) := by positivity
      exact div_nonneg (by linarith) (le_of_lt hb0)

theorem radInv_lt_one (b : Nat) (hb : 2 ≤ b) : ∀ k, radInv b k < 1 := by
  intro k
  induction k using Nat.strong_induction_on with
  | _ k ih =>
    by_cases hk : k = 0
    · subst hk; rw [radInv_zero]; norm_num
    · rw [radInv_eq b k hb]
      have hb0 : (0:ℚ) < (b : ℚ) := by exact_mod_cast (by omega : 0 < b)
      have h1 : radInv b (k / b) < 1 :=
        ih (k / b) (Nat.div_lt_self (Nat.pos_of_ne_zero hk) hb)
      have h2 : ((k % b : Nat) : ℚ) ≤ (b : ℚ) - 1 := by
        have : k % b ≤ b - 1 := Nat.le_pred_of_lt (Nat.mod_lt k (by omega))
        have hcast : ((k % b : Nat) : ℚ) ≤ ((b - 1 : Nat) : ℚ) := by exact_mod_cast this
        have : ((b - 1 : Nat) : ℚ) = (b : ℚ) - 1 := by
          have : (1 : Nat) ≤ b := by omega
          push_cast [this]
          ring
        linarith
      rw [div_lt_one hb0]
      linarith

theorem radInv_pos (b : Nat) (hb : 2 ≤ b) : ∀ k, 1 ≤ k → 0 < radInv b k := by
  intro k
  induction k using Nat.strong_induction_on with
  | _ k ih =>
    intro hk1
    have hk : k ≠ 0 := by omega
    rw [radInv_eq b k hb]
    have hb0 : (0:ℚ) < (b : ℚ) := by exact_mod_cast (by omega : 0 < b)
    have hnn : 0 ≤ radInv b (k / b) := radInv_nonneg b hb (k / b)
    by_cases hm : k % b = 0
    · have hdvd : b ∣ k := Nat.dvd_of_mod_eq_zero hm
      have hge : b ≤ k := Nat.le_of_dvd (by omega) hdvd
      have hq1 : 1 ≤ k / b := (Nat.one_le_div_iff (by omega)).2 hge
      have hq : 0 < radInv b (k / b) :=
        ih (k / b) (Nat.div_lt_self (by omega) hb) hq1
      apply div_pos _ hb0
      rw [hm]
      push_cast
      linarith
    · have h1 : (1:ℚ) ≤ ((k % b : Nat) : ℚ) := by exact_mod_cast Nat.one_le_iff_ne_zero.2 hm
      apply div_pos _ hb0
      linarith

/-! ## digitsOf / rlist lemmas -/

theorem length_digitsOf (b : Nat) : ∀ D k, (digitsOf b D k).length = D
  | 0, _ => rfl
  | D + 1, k => congrArg Nat.succ (length_digitsOf b D (k / b))

theorem length_rlist (b : Nat) : ∀ D k, (rlist b D k).length = D
  | 0, _ => rfl
  | D + 1, k => congrArg Nat.succ (length_rlist b D (k / b))

theorem digitsOf_getD (b : Nat) : ∀ D k i, i < D →
    (digitsOf b D k).getD i 0 = k / b ^ i % b
  | D + 1, k, 0, _ => by simp [digitsOf]
  | D + 1, k, i + 1, h => by
    have := digitsOf_getD b D (k / b) i (Nat.lt_of_succ_lt_succ h)
    simp only [digitsOf, List.getD_cons_succ]
    rw [this, Nat.div_div_eq_div_mul, ← pow_succ']

theorem digitsOf_getD_ge (b : Nat) : ∀ D k i, D ≤ i → (digitsOf b D k).getD i 0 = 0 := by
  intro D k i h
  apply List.getD_eq_default
  rw [length_digitsOf]
  exact h

theorem rlist_getD (b : Nat) : ∀ D k i, i < D →
    (rlist b D k).getD i 0 = radInv b (k / b ^ (i + 1))
  | D + 1, k, 0, _ => by simp [rlist]
  | D + 1, k, i + 1, h => by
    have := rlist_getD b D (k / b) i (Nat.lt_of_succ_lt_succ h)
    simp only [rlist, List.getD_cons_succ]
    rw [this, Nat.div_div_eq_div_mul, ← pow_succ']

theorem rlist_getD_ge (b : Nat) : ∀ D k i, D ≤ i → (rlist b D k).getD i 0 = 0 := by
  intro D k i h
  apply List.getD_eq_default
  rw [length_rlist]
  exact h

theorem digitsOf_zero (b : Nat) : ∀ D, digitsOf b D 0 = List.replicate D 0
  | 0 => rfl
  | D + 1 => by
    simp only [digitsOf, Nat.zero_mod, Nat.zero_div, List.replicate_succ]
    rw [digitsOf_zero b D]

theorem rlist_zero (b : Nat) : ∀ D, rlist b D 0 = List.replicate D 0
  | 0 => rfl
  | D + 1 => by
    simp only [rlist, Nat.zero_div, List.replicate_succ, radInv_zero]
    rw [rlist_zero b D]

theorem new_eq_mkState (D b : Nat) : new D b = mkState b D 0 := by
  simp only [new, mkState, digitsOf_zero, rlist_zero]

theorem rlist_eq_of_div_eq (b : Nat) : ∀ D k m, k / b = m / b → rlist b D k = rlist b D m
  | 0, _, _, _ => rfl
  | D + 1, k, m, h => by simp only [rlist, h]

/-! ## clen lemmas -/

theorem clen_succ (b D k : Nat) :
    clen b (D + 1) k = if k % b = b - 1 then clen b D (k / b) + 1 else 0 := rfl

theorem clen_le (b : Nat) : ∀ D k, clen b D k ≤ D
  | 0, _ => Nat.le_refl 0
  | D + 1, k => by
    rw [clen_succ]
    by_cases h : k % b = b - 1
    · rw [if_pos h]
      exact Nat.succ_le_succ (clen_le b D (k / b))
    · rw [if_neg h]
      exact Nat.zero_le _

theorem clen_dvd (b : Nat) (hb : 2 ≤ b) : ∀ D k, b ^ clen b D k ∣ k + 1
  | 0, k => by rw [show clen b 0 k = 0 from rfl, pow_zero]; exact one_dvd _
  | D + 1, k => by
    rw [clen_succ]
    by_cases h : k % b = b - 1
    · rw [if_pos h]
      obtain ⟨t, ht⟩ := clen_dvd b hb D (k / b)
      refine ⟨t, ?_⟩
      have hq := Nat.div_add_mod k b
      have he : b * (k / b + 1) = b * (k / b) + b := by ring
      have hk1 : k + 1 = b * (k / b + 1) := by omega
      rw [hk1, ht, pow_succ]
      ring
    · rw [if_neg h, pow_zero]
      exact one_dvd _

theorem clen_decomp (b : Nat) (hb : 2 ≤ b) (D k : Nat) :
    k + 1 = b ^ clen b D k * (k / b ^ clen b D k + 1) := by
  obtain ⟨t, ht⟩ := clen_dvd b hb D k
  set c := clen b D k with hc
  have hQ : 0 < b ^ c := Nat.pos_pow_of_pos _ (by omega)
  have ht1 : 1 ≤ t := by
    rcases Nat.eq_zero_or_pos t with h0 | h1
    · rw [h0, Nat.mul_zero] at ht; omega
    · exact h1
  obtain ⟨t1, rfl⟩ : ∃ t1, t = t1 + 1 := ⟨t - 1, by omega⟩
  have hmul : b ^ c * (t1 + 1) = b ^ c * t1 + b ^ c := by ring
  have hk : k = b ^ c * t1 + (b ^ c - 1) := by omega
  have hdiv : k / b ^ c = t1 := by
    rw [hk, Nat.mul_add_div hQ, Nat.div_eq_of_lt (by omega), Nat.add_zero]
  rw [hdiv, ht]

theorem clen_digit_ne (b : Nat) (hb : 2 ≤ b) : ∀ D k, clen b D k < D →
    k / b ^ clen b D k % b ≠ b - 1
  | 0, k, h => absurd h (Nat.not_lt_zero _)
  | D + 1, k, h => by
    by_cases hm : k % b = b - 1
    · have hc : clen b (D + 1) k = clen b D (k / b) + 1 := by
        rw [clen_succ, if_pos hm]
      rw [hc]
      rw [hc] at h
      have ih := clen_digit_ne b hb D (k / b) (Nat.lt_of_succ_lt_succ h)
      rwa [pow_succ', ← Nat.div_div_eq_div_mul]
    · have hc : clen b (D + 1) k = 0 := by rw [clen_succ, if_neg hm]
      rw [hc]
      simpa using hm

theorem clen_eq_of_succ_eq_pow (b : Nat) (hb : 2 ≤ b) :
    ∀ D k, k + 1 = b ^ D → clen b D k = D
  | 0, k, h => rfl
  | D + 1, k, h => by
    have hQ : 0 < b ^ D := Nat.pos_pow_of_pos _ (by omega)
    obtain ⟨Q1, hQ1⟩ : ∃ Q1, b ^ D = Q1 + 1 := ⟨b ^ D - 1, by omega⟩
    have hbq : b * (Q1 + 1) = b * Q1 + b := by ring
    have hk : k = b * Q1 + (b - 1) := by
      have hh : k + 1 = b * (Q1 + 1) := by rw [h, pow_succ, hQ1]; ring
      omega
    have hmod : k % b = b - 1 := by
      rw [hk, Nat.mul_add_mod, Nat.mod_eq_of_lt (by omega)]
    have hdiv : k / b = Q1 := by
      rw [hk, Nat.mul_add_div (by omega), Nat.div_eq_of_lt (by omega), Nat.add_zero]
    have hrec : clen b (D + 1) k = clen b D (k / b) + 1 := by
      rw [clen_succ, if_pos hmod]
    rw [hrec, hdiv, clen_eq_of_succ_eq_pow b hb D Q1 (by omega)]

theorem clen_lt_of_succ_lt_pow (b : Nat) (hb : 2 ≤ b) (D k : Nat)
    (h : k + 1 < b ^ D) : clen b D k < D := by
  rcases Nat.lt_or_ge (clen b D k) D with hlt | hge
  · exact hlt
  · exfalso
    have he : clen b D k = D := Nat.le_antisymm (clen_le b D k) hge
    have hdvd : b ^ D ∣ k + 1 := he ▸ clen_dvd b hb D k
    have := Nat.le_of_dvd (by omega) hdvd
    omega

theorem clen_pos_of_mod (b D k : Nat) (hD : 0 < D) (h : k % b = b - 1) :
    0 < clen b D k := by
  obtain ⟨D1, rfl⟩ : ∃ D1, D = D1 + 1 := ⟨D - 1, by omega⟩
  rw [clen_succ, if_pos h]
  exact Nat.succ_pos _

/-! ## Correctness of the carry loop -/

theorem set_replicate_append {α} (a v : α) (l : Nat) (y : α) (rest : List α) :
    (List.replicate l a ++ y :: rest).set l v = List.replicate l a ++ v :: rest := by
  have h := set_append_cons v (List.replicate l a) y rest
  rwa [List.length_replicate] at h

theorem getD_replicate_append {α} (d0 a : α) (l : Nat) (y : α) (rest : List α) :
    (List.replicate l a ++ y :: rest).getD l d0 = y := by
  have h := getD_append_cons d0 (List.replicate l a) y rest
  rwa [List.length_replicate] at h

/-- One unfolding of `carryLoop` at positive fuel. -/
theorem carryLoop_succ (b : Nat) (d : List Nat) (l fuel : Nat) :
    carryLoop b d l (fuel + 1) =
      if l + 1 = (d.set l 0).length then (d.set l 0, none)
      else if ((d.set l 0).set (l + 1) ((d.set l 0).getD (l + 1) 0 + 1)).getD (l + 1) 0 = b
        then carryLoop b ((d.set l 0).set (l + 1) ((d.set l 0).getD (l + 1) 0 + 1)) (l + 1) fuel
        else ((d.set l 0).set (l + 1) ((d.set l 0).getD (l + 1) 0 + 1), some (l + 1)) := rfl

/-- Behaviour of the carry loop entered at level `l` on a digit list whose
positions below `l` are already zeroed, position `l` holds the overflowed
digit `b`, and the remaining `Dr` positions hold the digits of `m`. -/
theorem carryLoop_spec (b : Nat) (hb : 2 ≤ b) :
    ∀ Dr m l, m < b ^ Dr →
      carryLoop b (List.replicate l 0 ++ b :: digitsOf b Dr m) l (Dr + 1) =
        if m + 1 = b ^ Dr then (List.replicate (l + 1 + Dr) 0, none)
        else (List.replicate (l + 1) 0 ++ digitsOf b Dr (m + 1), some (l + 1 + clen b Dr m))
  | 0, m, l, hm => by
    have hm0 : m = 0 := by simpa using hm
    subst hm0
    have hcond : (0 : Nat) + 1 = b ^ 0 := by rw [pow_zero]; omega
    rw [if_pos hcond, carryLoop_succ, set_replicate_append]
    have hlen : l + 1 = (List.replicate l (0:Nat) ++ 0 :: digitsOf b 0 0).length := by
      simp [digitsOf]
    rw [if_pos hlen]
    show (List.replicate l 0 ++ [0], (none : Option Nat)) = (List.replicate (l + 1 + 0) 0, none)
    rw [Nat.add_zero, List.replicate_succ']
  | Dr + 1, m, l, hm => by
    have hb0 : 0 < b := by omega
    have hrest : digitsOf b (Dr + 1) m = m % b :: digitsOf b Dr (m / b) := rfl
    rw [hrest, carryLoop_succ, set_replicate_append, ← replicate_succ_append]
    have hlen : (List.replicate (l + 1) (0:Nat) ++ m % b :: digitsOf b Dr (m / b)).length
        = l + 2 + Dr := by
      simp [length_digitsOf]
      omega
    rw [if_neg (by rw [hlen]; omega)]
    rw [getD_replicate_append, set_replicate_append, getD_replicate_append]
    have hmblt : m % b < b := Nat.mod_lt m hb0
    by_cases hcarry : m % b + 1 = b
    · rw [if_pos hcarry, hcarry]
      have hdm := Nat.div_add_mod m b
      have hmul : b * (m / b + 1) = b * (m / b) + b := by ring
      have hm1 : m + 1 = b * (m / b + 1) := by omega
      have hdiv_lt : m / b < b ^ Dr := by
        rw [Nat.div_lt_iff_lt_mul hb0, ← pow_succ]
        exact hm
      rw [carryLoop_spec b hb Dr (m / b) (l + 1) hdiv_lt]
      have hiff : m + 1 = b ^ (Dr + 1) ↔ m / b + 1 = b ^ Dr := by
        constructor
        · intro he
          apply Nat.eq_of_mul_eq_mul_left hb0
          rw [← hm1, he, pow_succ']
        · intro he
          rw [hm1, he, pow_succ']
      by_cases hpow : m / b + 1 = b ^ Dr
      · rw [if_pos hpow, if_pos (hiff.2 hpow)]
        have : l + 1 + 1 + Dr = l + 1 + (Dr + 1) := by omega
        rw [this]
      · rw [if_neg hpow, if_neg (fun he => hpow (hiff.1 he))]
        have hmod0 : (m + 1) % b = 0 := by rw [hm1]; exact Nat.mul_mod_right b _
        have hdiv1 : (m + 1) / b = m / b + 1 := by
          rw [hm1]; exact Nat.mul_div_cancel_left _ hb0
        have hdig : digitsOf b (Dr + 1) (m + 1) = 0 :: digitsOf b Dr (m / b + 1) := by
          rw [show digitsOf b (Dr + 1) (m + 1)
              = (m + 1) % b :: digitsOf b Dr ((m + 1) / b) from rfl, hmod0, hdiv1]
        rw [hdig, ← replicate_succ_append]
        have hmb : m % b = b - 1 := by omega
        have hclen : clen b (Dr + 1) m = clen b Dr (m / b) + 1 := by
          rw [clen_succ, if_pos hmb]
        rw [hclen]
        have : l + 1 + 1 + clen b Dr (m / b) = l + 1 + (clen b Dr (m / b) + 1) := by omega
        rw [this]
    · rw [if_neg hcarry]
      have hne : m + 1 ≠ b ^ (Dr + 1) := by
        intro he
        have hT : 0 < b ^ Dr := Nat.pos_pow_of_pos _ hb0
        obtain ⟨T1, hT1⟩ : ∃ T1, b ^ Dr = T1 + 1 := ⟨b ^ Dr - 1, by omega⟩
        have hmT : m + 1 = b * (T1 + 1) := by rw [he, pow_succ', hT1]
        have hmul : b * (T1 + 1) = b * T1 + b := by ring
        have hk : m = b * T1 + (b - 1) := by omega
        have : m % b = b - 1 := by
          rw [hk, Nat.mul_add_mod, Nat.mod_eq_of_lt (by omega)]
        omega
      rw [if_neg hne]
      have hlt : m % b + 1 < b := by omega
      have hsd := succ_div_eq m b hb hlt
      have hdig : digitsOf b (Dr + 1) (m + 1) = (m % b + 1) :: digitsOf b Dr (m / b) := by
        rw [show digitsOf b (Dr + 1) (m + 1)
            = (m + 1) % b :: digitsOf b Dr ((m + 1) / b) from rfl, hsd.1, hsd.2]
      rw [hdig]
      have hclen : clen b (Dr + 1) m = 0 := by
        rw [clen_succ, if_neg (by omega)]
      rw [hclen]

/-! ## Behaviour of the cache back-propagation loop -/

theorem rprop_getD (b : Nat) : ∀ (c : Nat) (r : List ℚ), c < r.length →
    ∀ i, (rprop b r c).getD i 0 =
      if i < c then r.getD c 0 / (b : ℚ) ^ (c - i) else r.getD i 0
  | 0, r, _, i => by
    rw [show rprop b r 0 = r from rfl, if_neg (Nat.not_lt_zero i)]
  | c + 1, r, hc, i => by
    rw [show rprop b r (c + 1) = rprop b (r.set c (r.getD (c + 1) 0 / (b : ℚ))) c from rfl]
    have hcr : c < r.length := by omega
    have hlen : c < (r.set c (r.getD (c + 1) 0 / (b : ℚ))).length := by
      rw [List.length_set]; exact hcr
    rw [rprop_getD b c _ hlen i]
    rcases Nat.lt_trichotomy i c with hic | hic | hic
    · rw [if_pos hic, if_pos (by omega)]
      rw [getD_set_self 0 _ r c hcr]
      rw [div_div, ← pow_succ']
      have he : c + 1 - i = (c - i) + 1 := by omega
      rw [he, pow_succ']
    · subst hic
      rw [if_neg (by omega), if_pos (by omega)]
      rw [getD_set_self 0 _ r i hcr]
      have he : i + 1 - i = 1 := by omega
      rw [he, pow_one]
    · rw [if_neg (by omega), if_neg (by omega)]
      exact getD_set_ne 0 _ r c i (by omega)

theorem length_rprop (b : Nat) : ∀ (c : Nat) (r : List ℚ), (rprop b r c).length = r.length
  | 0, r => rfl
  | c + 1, r => by
    rw [show rprop b r (c + 1) = rprop b (r.set c (r.getD (c + 1) 0 / (b : ℚ))) c from rfl,
      length_rprop b c _, List.length_set]

/-! ## The step function on well-formed states -/

theorem succ_eq_mul_div_succ (b k : Nat) (hb0 : 0 < b) (hmb : k % b = b - 1) :
    k + 1 = b * (k / b + 1) := by
  have h1 := Nat.div_add_mod k b
  have h2 : b * (k / b + 1) = b * (k / b) + b := by ring
  omega

theorem succ_eq_pow_iff (b : Nat) (hb : 2 ≤ b) (Dd k : Nat) (hmb : k % b = b - 1) :
    k + 1 = b ^ (Dd + 1) ↔ k / b + 1 = b ^ Dd := by
  have hb0 : 0 < b := by omega
  have hm1 := succ_eq_mul_div_succ b k hb0 hmb
  constructor
  · intro he
    apply Nat.eq_of_mul_eq_mul_left hb0
    rw [← hm1, he, pow_succ']
  · intro he
    rw [hm1, he, pow_succ']

theorem next_digits_exhaust (b D k : Nat) (hb : 2 ≤ b) (hD : 0 < D)
    (hk : k + 1 = b ^ D) (r : List ℚ) :
    next ⟨b, digitsOf b D k, r⟩ = (none, ⟨b, List.replicate D 0, r⟩) := by
  obtain ⟨Dd, rfl⟩ : ∃ Dd, D = Dd + 1 := ⟨D - 1, by omega⟩
  have hb0 : 0 < b := by omega
  have hclen := clen_eq_of_succ_eq_pow b hb (Dd + 1) k hk
  have hmb : k % b = b - 1 := by
    by_contra hne
    rw [clen_succ, if_neg hne] at hclen
    omega
  have hmb1 : k % b + 1 = b := by
    have := Nat.mod_lt k hb0
    omega
  simp only [next]
  have hd1 : (digitsOf b (Dd + 1) k).set 0 ((digitsOf b (Dd + 1) k).getD 0 0 + 1)
      = (k % b + 1) :: digitsOf b Dd (k / b) := rfl
  rw [hd1, hmb1]
  rw [if_pos (show (b :: digitsOf b Dd (k / b)).getD 0 0 = b from rfl)]
  have hlen : (b :: digitsOf b Dd (k / b)).length = Dd + 1 := by
    rw [List.length_cons, length_digitsOf]
  rw [hlen]
  have hdivlt : k / b < b ^ Dd := by
    rw [Nat.div_lt_iff_lt_mul hb0, ← pow_succ]
    omega
  have hcl := carryLoop_spec b hb Dd (k / b) 0 hdivlt
  rw [List.replicate_zero, List.nil_append] at hcl
  rw [if_pos ((succ_eq_pow_iff b hb Dd k hmb).1 hk)] at hcl
  rw [hcl]
  have hidx : 0 + 1 + Dd = Dd + 1 := by omega
  rw [hidx]

theorem next_mkState_exhaust (b D k : Nat) (hb : 2 ≤ b) (hD : 0 < D)
    (hk : k + 1 = b ^ D) :
    next (mkState b D k) = (none, ⟨b, List.replicate D 0, rlist b D k⟩) :=
  next_digits_exhaust b D k hb hD hk (rlist b D k)

/-- Unfolding of `next` when the first digit does not overflow. -/
theorem next_nocarry_eq (bb : Nat) (dd : List Nat) (rr : List ℚ)
    (hcond : (dd.set 0 (dd.getD 0 0 + 1)).getD 0 0 ≠ bb) :
    next ⟨bb, dd, rr⟩ =
      (some ((((dd.set 0 (dd.getD 0 0 + 1)).getD 0 0 : ℚ) + rr.getD 0 0) / (bb : ℚ)),
       ⟨bb, dd.set 0 (dd.getD 0 0 + 1), rr⟩) := by
  simp only [next]
  rw [if_neg hcond]

/-- Unfolding of `next` when the carry loop exits at level `L`. -/
theorem next_carry_eq (bb : Nat) (dd : List Nat) (rr : List ℚ) (d2 : List Nat) (L : Nat)
    (hcond : (dd.set 0 (dd.getD 0 0 + 1)).getD 0 0 = bb)
    (hcl : carryLoop bb (dd.set 0 (dd.getD 0 0 + 1)) 0
        (dd.set 0 (dd.getD 0 0 + 1)).length = (d2, some L)) :
    next ⟨bb, dd, rr⟩ =
      (some ((rprop bb (rr.set (L - 1)
          (((d2.getD L 0 : ℚ) + rr.getD L 0) / (bb : ℚ))) (L - 1)).getD 0 0 / (bb : ℚ)),
       ⟨bb, d2, rprop bb (rr.set (L - 1)
          (((d2.getD L 0 : ℚ) + rr.getD L 0) / (bb : ℚ))) (L - 1)⟩) := by
  simp only [next]
  rw [if_pos hcond, hcl]

/-- A successful step from the state representing index `k` produces
`radInv b (k + 1)` and moves to the state representing index `k + 1`. -/
theorem next_mkState_lt (b D k : Nat) (hb : 2 ≤ b) (hD : 0 < D) (hk : k + 1 < b ^ D) :
    next (mkState b D k) = (some (radInv b (k + 1)), mkState b D (k + 1)) := by
  obtain ⟨Dd, rfl⟩ : ∃ Dd, D = Dd + 1 := ⟨D - 1, by omega⟩
  have hb0 : 0 < b := by omega
  have hmblt : k % b < b := Nat.mod_lt k hb0
  show next ⟨b, digitsOf b (Dd + 1) k, rlist b (Dd + 1) k⟩
      = (some (radInv b (k + 1)), mkState b (Dd + 1) (k + 1))
  by_cases hmb1 : k % b + 1 = b
  · -- carry case
    have hmb : k % b = b - 1 := by omega
    have hdivlt : k / b < b ^ Dd := by
      rw [Nat.div_lt_iff_lt_mul hb0, ← pow_succ]
      omega
    have hpne : k / b + 1 ≠ b ^ Dd := by
      intro he
      have := (succ_eq_pow_iff b hb Dd k hmb).2 he
      omega
    have hm1 : k + 1 = b * (k / b + 1) := succ_eq_mul_div_succ b k hb0 hmb
    have hmod0 : (k + 1) % b = 0 := by rw [hm1]; exact Nat.mul_mod_right b _
    have hdiv1 : (k + 1) / b = k / b + 1 := by
      rw [hm1]; exact Nat.mul_div_cancel_left _ hb0
    have hLrec : clen b (Dd + 1) k = clen b Dd (k / b) + 1 := by
      rw [clen_succ, if_pos hmb]
    set L := clen b (Dd + 1) k with hLdef
    have hL1 : 1 ≤ L := by omega
    have hLD : L < Dd + 1 := clen_lt_of_succ_lt_pow b hb (Dd + 1) k hk
    have hcl := carryLoop_spec b hb Dd (k / b) 0 hdivlt
    rw [List.replicate_zero, List.nil_append, if_neg hpne] at hcl
    have hd2 : List.replicate (0 + 1) (0:Nat) ++ digitsOf b Dd (k / b + 1)
        = digitsOf b (Dd + 1) (k + 1) := by
      rw [show digitsOf b (Dd + 1) (k + 1)
          = (k + 1) % b :: digitsOf b Dd ((k + 1) / b) from rfl, hmod0, hdiv1]
      rfl
    rw [hd2, show 0 + 1 + clen b Dd (k / b) = L from by omega] at hcl
    have hcond0 : ((digitsOf b (Dd + 1) k).set 0
        ((digitsOf b (Dd + 1) k).getD 0 0 + 1)).getD 0 0 = b := by
      rw [show (digitsOf b (Dd + 1) k).set 0 ((digitsOf b (Dd + 1) k).getD 0 0 + 1)
          = (k % b + 1) :: digitsOf b Dd (k / b) from rfl]
      rw [show ((k % b + 1) :: digitsOf b Dd (k / b)).getD 0 0 = k % b + 1 from rfl, hmb1]
    have hcl0 : carryLoop b ((digitsOf b (Dd + 1) k).set 0
          ((digitsOf b (Dd + 1) k).getD 0 0 + 1)) 0
        ((digitsOf b (Dd + 1) k).set 0
          ((digitsOf b (Dd + 1) k).getD 0 0 + 1)).length
        = (digitsOf b (Dd + 1) (k + 1), some L) := by
      rw [show (digitsOf b (Dd + 1) k).set 0 ((digitsOf b (Dd + 1) k).getD 0 0 + 1)
          = (k % b + 1) :: digitsOf b Dd (k / b) from rfl, hmb1]
      rw [show (b :: digitsOf b Dd (k / b)).length = Dd + 1 from by
        rw [List.length_cons, length_digitsOf]]
      exact hcl
    rw [next_carry_eq b (digitsOf b (Dd + 1) k) (rlist b (Dd + 1) k)
      (digitsOf b (Dd + 1) (k + 1)) L hcond0 hcl0]
    -- facts about the jump position
    have hpowpos : 0 < b ^ L := Nat.pos_pow_of_pos _ hb0
    have hAdecomp : k + 1 = b ^ L * (k / b ^ L + 1) := clen_decomp b hb (Dd + 1) k
    have hAne : k / b ^ L % b ≠ b - 1 := clen_digit_ne b hb (Dd + 1) k hLD
    have hAmlt : k / b ^ L % b < b := Nat.mod_lt _ hb0
    have hAlt : k / b ^ L % b + 1 < b := by omega
    have hsdA := succ_div_eq (k / b ^ L) b hb hAlt
    have hk1L : (k + 1) / b ^ L = k / b ^ L + 1 := by
      rw [hAdecomp]
      exact Nat.mul_div_cancel_left _ hpowpos
    have hhigh : ∀ j, 1 ≤ j → (k + 1) / b ^ (L + j) = k / b ^ (L + j) := by
      intro j hj
      have h1 : (k + 1) / b ^ (L + j) = (k / b ^ L + 1) / b ^ j := by
        rw [hAdecomp, pow_add]
        exact Nat.mul_div_mul_left _ _ hpowpos
      have h2 : k / b ^ (L + j) = k / b ^ L / b ^ j := by
        rw [pow_add, ← Nat.div_div_eq_div_mul]
      rw [h1, h2, succ_div_pow_eq (k / b ^ L) b hb hAlt j hj]
    have hdigL : (digitsOf b (Dd + 1) (k + 1)).getD L 0 = k / b ^ L % b + 1 := by
      rw [digitsOf_getD b (Dd + 1) (k + 1) L hLD, hk1L, hsdA.2]
    have hrL : (rlist b (Dd + 1) k).getD L 0 = radInv b (k / b ^ L / b) := by
      rw [rlist_getD b (Dd + 1) k L hLD]
      congr 1
      rw [pow_succ, ← Nat.div_div_eq_div_mul]
    have hv : (((k / b ^ L % b + 1 : Nat) : ℚ) + radInv b (k / b ^ L / b)) / (b : ℚ)
        = radInv b (k / b ^ L + 1) := by
      rw [radInv_eq b (k / b ^ L + 1) hb, hsdA.1, hsdA.2]
    -- the rebuilt cache equals the cache for k + 1
    have hr2 : rprop b ((rlist b (Dd + 1) k).set (L - 1)
        ((((digitsOf b (Dd + 1) (k + 1)).getD L 0 : ℚ)
          + (rlist b (Dd + 1) k).getD L 0) / (b : ℚ))) (L - 1)
        = rlist b (Dd + 1) (k + 1) := by
      have hsetlen : ((rlist b (Dd + 1) k).set (L - 1)
          ((((digitsOf b (Dd + 1) (k + 1)).getD L 0 : ℚ)
            + (rlist b (Dd + 1) k).getD L 0) / (b : ℚ))).length = Dd + 1 := by
        rw [List.length_set, length_rlist]
      have hsetget : ((rlist b (Dd + 1) k).set (L - 1)
          ((((digitsOf b (Dd + 1) (k + 1)).getD L 0 : ℚ)
            + (rlist b (Dd + 1) k).getD L 0) / (b : ℚ))).getD (L - 1) 0
          = radInv b (k / b ^ L + 1) := by
        rw [getD_set_self 0 _ _ (L - 1) (by rw [length_rlist]; omega)]
        rw [hdigL, hrL]
        exact hv
      apply list_ext_getD 0
      · rw [length_rprop, hsetlen, length_rlist]
      · intro i
        by_cases hiD : i < Dd + 1
        · rw [rprop_getD b (L - 1) _ (by rw [hsetlen]; omega) i]
          rcases Nat.lt_trichotomy i (L - 1) with hi | hi | hi
          · rw [if_pos hi, hsetget]
            rw [rlist_getD b (Dd + 1) (k + 1) i hiD]
            have hle : i + 1 ≤ L - 1 := by omega
            have hsplit : (k + 1) / b ^ (i + 1) = (k / b ^ L + 1) * b ^ (L - 1 - i) := by
              have hpow : b ^ L = b ^ (i + 1) * b ^ (L - 1 - i) := by
                rw [← pow_add]
                congr 1
                omega
              rw [hAdecomp, hpow, mul_assoc,
                Nat.mul_div_cancel_left _ (Nat.pos_pow_of_pos _ hb0), mul_comm]
            rw [hsplit, radInv_mul_pow b _ hb (L - 1 - i)]
          · rw [if_neg (by omega), hi, hsetget]
            rw [rlist_getD b (Dd + 1) (k + 1) (L - 1) (by omega)]
            rw [show L - 1 + 1 = L from by omega, hk1L]
          · rw [if_neg (by omega)]
            rw [getD_set_ne 0 _ _ (L - 1) i (by omega)]
            rw [rlist_getD b (Dd + 1) k i hiD, rlist_getD b (Dd + 1) (k + 1) i hiD]
            have hj := hhigh (i + 1 - L) (by omega)
            rw [show L + (i + 1 - L) = i + 1 from by omega] at hj
            rw [hj]
        · rw [List.getD_eq_default _ _ (by rw [length_rprop, hsetlen]; omega),
            List.getD_eq_default _ _ (by rw [length_rlist]; omega)]
    rw [hr2]
    have hval : (rlist b (Dd + 1) (k + 1)).getD 0 0 / (b : ℚ) = radInv b (k + 1) := by
      rw [show (rlist b (Dd + 1) (k + 1)).getD 0 0 = radInv b ((k + 1) / b) from rfl]
      rw [radInv_eq b (k + 1) hb, hmod0]
      norm_num
    rw [hval]
    rfl
  · -- no-carry case
    have hlt : k % b + 1 < b := by omega
    have hsd := succ_div_eq k b hb hlt
    have hcond0 : ((digitsOf b (Dd + 1) k).set 0
        ((digitsOf b (Dd + 1) k).getD 0 0 + 1)).getD 0 0 ≠ b := by
      rw [show (digitsOf b (Dd + 1) k).set 0 ((digitsOf b (Dd + 1) k).getD 0 0 + 1)
          = (k % b + 1) :: digitsOf b Dd (k / b) from rfl]
      rw [show ((k % b + 1) :: digitsOf b Dd (k / b)).getD 0 0 = k % b + 1 from rfl]
      exact hmb1
    rw [next_nocarry_eq b (digitsOf b (Dd + 1) k) (rlist b (Dd + 1) k) hcond0]
    have hd1 : (digitsOf b (Dd + 1) k).set 0 ((digitsOf b (Dd + 1) k).getD 0 0 + 1)
        = digitsOf b (Dd + 1) (k + 1) := by
      rw [show (digitsOf b (Dd + 1) k).set 0 ((digitsOf b (Dd + 1) k).getD 0 0 + 1)
          = (k % b + 1) :: digitsOf b Dd (k / b) from rfl]
      rw [show digitsOf b (Dd + 1) (k + 1)
          = (k + 1) % b :: digitsOf b Dd ((k + 1) / b) from rfl, hsd.1, hsd.2]
    rw [hd1]
    have hval : (((digitsOf b (Dd + 1) (k + 1)).getD 0 0 : ℚ)
        + (rlist b (Dd + 1) k).getD 0 0) / (b : ℚ) = radInv b (k + 1) := by
      rw [show (digitsOf b (Dd + 1) (k + 1)).getD 0 0 = (k + 1) % b from rfl]
      rw [show (rlist b (Dd + 1) k).getD 0 0 = radInv b (k / b) from rfl]
      rw [radInv_eq b (k + 1) hb, hsd.1]
    rw [hval]
    have hrsame : rlist b (Dd + 1) k = rlist b (Dd + 1) (k + 1) :=
      rlist_eq_of_div_eq b (Dd + 1) k (k + 1) hsd.1.symm
    rw [hrsame]
    rfl

/-- Digit evolution of a successful step is independent of the cache
contents: from any state carrying the digits of `k` (with any cache of the
right length), a step moves the digits to those of `k + 1`. -/
theorem next_digits_lt (b D k : Nat) (hb : 2 ≤ b) (hD : 0 < D) (hk : k + 1 < b ^ D)
    (rr : List ℚ) :
    ∃ v r2, next ⟨b, digitsOf b D k, rr⟩ = (some v, ⟨b, digitsOf b D (k + 1), r2⟩) ∧
      r2.length = rr.length := by
  obtain ⟨Dd, rfl⟩ : ∃ Dd, D = Dd + 1 := ⟨D - 1, by omega⟩
  have hb0 : 0 < b := by omega
  have hmblt : k % b < b := Nat.mod_lt k hb0
  by_cases hmb1 : k % b + 1 = b
  · have hmb : k % b = b - 1 := by omega
    have hdivlt : k / b < b ^ Dd := by
      rw [Nat.div_lt_iff_lt_mul hb0, ← pow_succ]
      omega
    have hpne : k / b + 1 ≠ b ^ Dd := by
      intro he
      have := (succ_eq_pow_iff b hb Dd k hmb).2 he
      omega
    have hm1 : k + 1 = b * (k / b + 1) := succ_eq_mul_div_succ b k hb0 hmb
    have hmod0 : (k + 1) % b = 0 := by rw [hm1]; exact Nat.mul_mod_right b _
    have hdiv1 : (k + 1) / b = k / b + 1 := by
      rw [hm1]; exact Nat.mul_div_cancel_left _ hb0
    have hcl := carryLoop_spec b hb Dd (k / b) 0 hdivlt
    rw [List.replicate_zero, List.nil_append, if_neg hpne] at hcl
    have hd2 : List.replicate (0 + 1) (0:Nat) ++ digitsOf b Dd (k / b + 1)
        = digitsOf b (Dd + 1) (k + 1) := by
      rw [show digitsOf b (Dd + 1) (k + 1)
          = (k + 1) % b :: digitsOf b Dd ((k + 1) / b) from rfl, hmod0, hdiv1]
      rfl
    rw [hd2] at hcl
    have hcond0 : ((digitsOf b (Dd + 1) k).set 0
        ((digitsOf b (Dd + 1) k).getD 0 0 + 1)).getD 0 0 = b := by
      rw [show (digitsOf b (Dd + 1) k).set 0 ((digitsOf b (Dd + 1) k).getD 0 0 + 1)
          = (k % b + 1) :: digitsOf b Dd (k / b) from rfl]
      rw [show ((k % b + 1) :: digitsOf b Dd (k / b)).getD 0 0 = k % b + 1 from rfl, hmb1]
    have hcl0 : carryLoop b ((digitsOf b (Dd + 1) k).set 0
          ((digitsOf b (Dd + 1) k).getD 0 0 + 1)) 0
        ((digitsOf b (Dd + 1) k).set 0
          ((digitsOf b (Dd + 1) k).getD 0 0 + 1)).length
        = (digitsOf b (Dd + 1) (k + 1), some (0 + 1 + clen b Dd (k / b))) := by
      rw [show (digitsOf b (Dd + 1) k).set 0 ((digitsOf b (Dd + 1) k).getD 0 0 + 1)
          = (k % b + 1) :: digitsOf b Dd (k / b) from rfl, hmb1]
      rw [show (b :: digitsOf b Dd (k / b)).length = Dd + 1 from by
        rw [List.length_cons, length_digitsOf]]
      exact hcl
    refine ⟨_, _, next_carry_eq b (digitsOf b (Dd + 1) k) rr
      (digitsOf b (Dd + 1) (k + 1)) (0 + 1 + clen b Dd (k / b)) hcond0 hcl0, ?_⟩
    rw [length_rprop, List.length_set]
  · have hlt : k % b + 1 < b := by omega
    have hsd := succ_div_eq k b hb hlt
    have hcond0 : ((digitsOf b (Dd + 1) k).set 0
        ((digitsOf b (Dd + 1) k).getD 0 0 + 1)).getD 0 0 ≠ b := by
      rw [show (digitsOf b (Dd + 1) k).set 0 ((digitsOf b (Dd + 1) k).getD 0 0 + 1)
          = (k % b + 1) :: digitsOf b Dd (k / b) from rfl]
      rw [show ((k % b + 1) :: digitsOf b Dd (k / b)).getD 0 0 = k % b + 1 from rfl]
      exact hmb1
    have heq := next_nocarry_eq b (digitsOf b (Dd + 1) k) rr hcond0
    have hd1 : (digitsOf b (Dd + 1) k).set 0 ((digitsOf b (Dd + 1) k).getD 0 0 + 1)
        = digitsOf b (Dd + 1) (k + 1) := by
      rw [show (digitsOf b (Dd + 1) k).set 0 ((digitsOf b (Dd + 1) k).getD 0 0 + 1)
          = (k % b + 1) :: digitsOf b Dd (k / b) from rfl]
      rw [show digitsOf b (Dd + 1) (k + 1)
          = (k + 1) % b :: digitsOf b Dd ((k + 1) / b) from rfl, hsd.1, hsd.2]
    rw [hd1] at heq
    exact ⟨_, _, heq, rfl⟩

/-! ## Iterated stepping -/

theorem stepN_mkState (b D : Nat) (hb : 2 ≤ b) (hD : 0 < D) :
    ∀ n k, k + n + 1 < b ^ D →
      stepN (mkState b D k) n = (some (radInv b (k + n + 1)), mkState b D (k + n + 1))
  | 0, k, h => by
    rw [show stepN (mkState b D k) 0 = next (mkState b D k) from rfl]
    rw [next_mkState_lt b D k hb hD (by omega)]
  | n + 1, k, h => by
    have hstep := next_mkState_lt b D k hb hD (by omega)
    rw [show stepN (mkState b D k) (n + 1)
        = (match next (mkState b D k) with
           | (none, s1) => (none, s1)
           | (some _, s1) => stepN s1 n) from rfl, hstep]
    show stepN (mkState b D (k + 1)) n = _
    rw [stepN_mkState b D hb hD n (k + 1) (by omega)]
    rw [show k + 1 + n + 1 = k + (n + 1) + 1 from by omega]

theorem stepN_mkState_some (b D : Nat) (hb : 2 ≤ b) (hD : 0 < D) :
    ∀ n k, k < b ^ D → ∀ v s1, stepN (mkState b D k) n = (some v, s1) →
      k + n + 1 < b ^ D
  | 0, k, hk, v, s1, he => by
    rcases Nat.lt_or_ge (k + 1) (b ^ D) with h1 | h1
    · omega
    · have hex : k + 1 = b ^ D := by omega
      rw [show stepN (mkState b D k) 0 = next (mkState b D k) from rfl,
        next_mkState_exhaust b D k hb hD hex] at he
      exact absurd (congrArg Prod.fst he) (by simp)
  | n + 1, k, hk, v, s1, he => by
    rcases Nat.lt_or_ge (k + 1) (b ^ D) with h1 | h1
    · have hstep := next_mkState_lt b D k hb hD h1
      rw [show stepN (mkState b D k) (n + 1)
          = (match next (mkState b D k) with
             | (none, s1) => (none, s1)
             | (some _, s1) => stepN s1 n) from rfl, hstep] at he
      have := stepN_mkState_some b D hb hD n (k + 1) h1 v s1 he
      omega
    · have hex : k + 1 = b ^ D := by omega
      rw [show stepN (mkState b D k) (n + 1)
          = (match next (mkState b D k) with
             | (none, s1) => (none, s1)
             | (some _, s1) => stepN s1 n) from rfl,
        next_mkState_exhaust b D k hb hD hex] at he
      exact absurd (congrArg Prod.fst he) (by simp)

theorem stepN_digits_none (b D : Nat) (hb : 2 ≤ b) (hD : 0 < D) :
    ∀ n k (r : List ℚ), k < b ^ D → b ^ D ≤ k + n + 1 →
      (stepN ⟨b, digitsOf b D k, r⟩ n).1 = none
  | 0, k, r, hk, hn => by
    have hex : k + 1 = b ^ D := by omega
    rw [show stepN ⟨b, digitsOf b D k, r⟩ 0 = next ⟨b, digitsOf b D k, r⟩ from rfl,
      next_digits_exhaust b D k hb hD hex r]
  | n + 1, k, r, hk, hn => by
    rcases Nat.lt_or_ge (k + 1) (b ^ D) with h1 | h1
    · obtain ⟨v, r2, heq, hlen⟩ := next_digits_lt b D k hb hD h1 r
      rw [show stepN ⟨b, digitsOf b D k, r⟩ (n + 1)
          = (match next ⟨b, digitsOf b D k, r⟩ with
             | (none, s1) => (none, s1)
             | (some _, s1) => stepN s1 n) from rfl, heq]
      exact stepN_digits_none b D hb hD n (k + 1) r2 h1 (by omega)
    · have hex : k + 1 = b ^ D := by omega
      rw [show stepN ⟨b, digitsOf b D k, r⟩ (n + 1)
          = (match next ⟨b, digitsOf b D k, r⟩ with
             | (none, s1) => (none, s1)
             | (some _, s1) => stepN s1 n) from rfl,
        next_digits_exhaust b D k hb hD hex r]

/-! ## The direct path of nth: digit decomposition and cache rebuild -/

theorem decompLoop_succ (b : Nat) (d : List Nat) (n last fuel : Nat) :
    decompLoop b d n last (fuel + 1) =
      if b ≤ n then
        if b = 0 then none
        else if d.length ≤ last then none
        else decompLoop b (d.set last (n % b)) (n / b) (last + 1) fuel
      else if d.length ≤ last then none
      else some (d.set last n) := rfl

theorem decompLoop_spec (b : Nat) (hb : 2 ≤ b) :
    ∀ m (pre : List Nat) t,
      decompLoop b (pre ++ List.replicate m 0) t pre.length (m + 1) =
        if 1 ≤ m ∧ t < b ^ m then some (pre ++ digitsOf b m t) else none
  | 0, pre, t => by
    rw [decompLoop_succ]
    have hlen : (pre ++ List.replicate 0 (0:Nat)).length ≤ pre.length := by simp
    rw [if_neg (show ¬(1 ≤ 0 ∧ t < b ^ 0) from by omega)]
    by_cases hbt : b ≤ t
    · rw [if_pos hbt, if_neg (show ¬b = 0 from by omega), if_pos hlen]
    · rw [if_neg hbt, if_pos hlen]
  | m + 1, pre, t => by
    have hb0 : 0 < b := by omega
    rw [decompLoop_succ]
    have hd : pre ++ List.replicate (m + 1) (0:Nat) = pre ++ 0 :: List.replicate m 0 := by
      rw [List.replicate_succ]
    have hlen : ¬((pre ++ List.replicate (m + 1) (0:Nat)).length ≤ pre.length) := by
      simp
    by_cases hbt : b ≤ t
    · rw [if_pos hbt, if_neg (show ¬b = 0 from by omega), if_neg hlen]
      rw [hd, set_append_cons]
      have hstep : pre ++ (t % b) :: List.replicate m (0:Nat)
          = (pre ++ [t % b]) ++ List.replicate m 0 := by
        rw [List.append_assoc]
        rfl
      have hlast : pre.length + 1 = (pre ++ [t % b]).length := by
        rw [List.length_append]
        rfl
      rw [hstep, hlast, decompLoop_spec b hb m (pre ++ [t % b]) (t / b)]
      by_cases hm0 : m = 0
      · subst hm0
        rw [if_neg (show ¬(1 ≤ 0 ∧ t / b < b ^ 0) from by omega),
          if_neg (show ¬(1 ≤ 0 + 1 ∧ t < b ^ (0 + 1)) from by
            rw [pow_one]; omega)]
      · have hiff : t / b < b ^ m ↔ t < b ^ (m + 1) := by
          rw [Nat.div_lt_iff_lt_mul hb0, ← pow_succ]
        by_cases hcond : t / b < b ^ m
        · rw [if_pos ⟨by omega, hcond⟩, if_pos ⟨by omega, hiff.1 hcond⟩]
          rw [List.append_assoc]
          rfl
        · rw [if_neg (by omega), if_neg (fun hc => hcond (hiff.2 hc.2))]
    · rw [if_neg hbt, if_neg hlen]
      rw [hd, set_append_cons]
      have htb : t < b ^ (m + 1) :=
        Nat.lt_of_lt_of_le (by omega) (Nat.le_self_pow (Nat.succ_ne_zero m) b)
      rw [if_pos ⟨by omega, htb⟩]
      have hdig : digitsOf b (m + 1) t = t :: List.replicate m 0 := by
        rw [show digitsOf b (m + 1) t = t % b :: digitsOf b m (t / b) from rfl,
          Nat.mod_eq_of_lt (by omega), Nat.div_eq_of_lt (by omega), digitsOf_zero]
      rw [hdig]

theorem rebuild_spec (b : Nat) (hb : 2 ≤ b) (D t : Nat) (ht : t < b ^ D) :
    ∀ c (r : List ℚ), c < D → r.length = D →
      (∀ i, c ≤ i → i < D → r.getD i 0 = radInv b (t / b ^ (i + 1))) →
      rebuild b (digitsOf b D t) r c = rlist b D t
  | 0, r, hc, hr, hinv => by
    rw [show rebuild b (digitsOf b D t) r 0 = r from rfl]
    apply list_ext_getD 0 r _ (by rw [hr, length_rlist])
    intro i
    by_cases hiD : i < D
    · rw [hinv i (Nat.zero_le i) hiD, rlist_getD b D t i hiD]
    · rw [List.getD_eq_default _ _ (by omega), rlist_getD_ge b D t i (by omega)]
  | c + 1, r, hc, hr, hinv => by
    rw [show rebuild b (digitsOf b D t) r (c + 1)
        = rebuild b (digitsOf b D t)
            (r.set c ((((digitsOf b D t).getD (c + 1) 0 : ℚ)
              + r.getD (c + 1) 0) / (b : ℚ))) c from rfl]
    apply rebuild_spec b hb D t ht c _ (by omega) (by rw [List.length_set, hr])
    intro i hci hiD
    rcases Nat.eq_or_lt_of_le hci with hic | hic
    · subst hic
      rw [getD_set_self 0 _ r c (by omega)]
      rw [digitsOf_getD b D t (c + 1) (by omega),
        hinv (c + 1) (by omega) (by omega)]
      rw [radInv_eq b (t / b ^ (c + 1)) hb]
      have hdd : t / b ^ (c + 1) / b = t / b ^ (c + 2) := by
        rw [Nat.div_div_eq_div_mul, ← pow_succ]
      rw [hdd]
    · rw [getD_set_ne 0 _ r c i (by omega)]
      exact hinv i (by omega) hiD

theorem decompLoop_replicate (b : Nat) (hb : 2 ≤ b) (D t : Nat) :
    decompLoop b (List.replicate D 0) t 0 (D + 1) =
      if 1 ≤ D ∧ t < b ^ D then some (digitsOf b D t) else none := by
  have h := decompLoop_spec b hb D [] t
  rwa [List.nil_append, List.length_nil, List.nil_append] at h

theorem rebuild_replicate (b : Nat) (hb : 2 ≤ b) (D t : Nat) (hD : 0 < D)
    (ht : t < b ^ D) :
    rebuild b (digitsOf b D t) (List.replicate D 0) (D - 1) = rlist b D t := by
  apply rebuild_spec b hb D t ht (D - 1) _ (by omega) (by rw [List.length_replicate])
  intro i hi hiD
  rw [getD_replicate 0 0 D i hiD]
  rw [show i + 1 = D from by omega, Nat.div_eq_of_lt ht, radInv_zero]

/-! ## Unfoldings of nth -/

theorem nth_eq_small (s : GenericSequence) (n : Nat) (h50 : ¬50 < n) :
    nth s n = some (stepN s n) := by
  simp only [nth]
  rw [if_neg h50]

theorem nth_eq_fallback (s : GenericSequence) (n : Nat) (h50 : 50 < n)
    (hpc : (pos s).bind (fun p => checkedAdd n p) = none) :
    nth s n = some (stepN s n) := by
  simp only [nth]
  rw [if_pos h50, hpc]

theorem nth_eq_direct (s : GenericSequence) (n : Nat) (h50 : 50 < n) (t : Nat)
    (hpc : (pos s).bind (fun p => checkedAdd n p) = some t) :
    nth s n =
      match decompLoop s.b (List.replicate s.d.length 0) t 0 (s.d.length + 1) with
      | none => none
      | some d2 => some (next ⟨s.b, d2,
          rebuild s.b d2 (List.replicate s.r.length 0)
            ((List.replicate s.r.length (0:ℚ)).length - 1)⟩) := by
  simp only [nth]
  rw [if_pos h50, hpc]

/-- Normal (non-panicking) value-returning `nth` calls keep the state in the
`mkState` family. -/
theorem nth_mkState_some (b D : Nat) (hb : 2 ≤ b) (hD : 0 < D) (k : Nat)
    (hk : k < b ^ D) (n : Nat) (v : ℚ) (s1 : GenericSequence)
    (he : nth (mkState b D k) n = some (some v, s1)) :
    ∃ k1, k1 < b ^ D ∧ s1 = mkState b D k1 := by
  have hfall : stepN (mkState b D k) n = (some v, s1) →
      ∃ k1, k1 < b ^ D ∧ s1 = mkState b D k1 := by
    intro hsv
    have hlt := stepN_mkState_some b D hb hD n k hk v s1 hsv
    rw [stepN_mkState b D hb hD n k hlt] at hsv
    exact ⟨k + n + 1, hlt, (congrArg Prod.snd hsv).symm⟩
  by_cases h50 : 50 < n
  · rcases hpc : (pos (mkState b D k)).bind (fun p => checkedAdd n p) with _ | t
    · rw [nth_eq_fallback _ n h50 hpc] at he
      exact hfall (Option.some_injective _ he)
    · rw [nth_eq_direct _ n h50 t hpc] at he
      have hdlen : (mkState b D k).d.length = D := length_digitsOf b D k
      have hrlen : (mkState b D k).r.length = D := length_rlist b D k
      rw [show (mkState b D k).b = b from rfl,
        show (mkState b D k).d.length = D from hdlen,
        show (mkState b D k).r.length = D from hrlen] at he
      rw [decompLoop_replicate b hb D t] at he
      by_cases ht : t < b ^ D
      · rw [if_pos ⟨by omega, ht⟩] at he
        rw [List.length_replicate] at he
        dsimp only [] at he
        rw [rebuild_replicate b hb D t hD ht] at he
        have he2 : next (mkState b D t) = (some v, s1) := by
          exact Option.some_injective _ he
        rcases Nat.lt_or_ge (t + 1) (b ^ D) with h1 | h1
        · rw [next_mkState_lt b D t hb hD h1] at he2
          refine ⟨t + 1, h1, ?_⟩
          have := (Prod.mk.injEq _ _ _ _ ▸ he2).2
          exact this.symm
        · have hex : t + 1 = b ^ D := by omega
          rw [next_mkState_exhaust b D t hb hD hex] at he2
          exact absurd (congrArg Prod.fst he2) (by simp)
      · rw [if_neg (by omega)] at he
        exact absurd he (by simp)
  · rw [nth_eq_small _ n h50] at he
    exact hfall (Option.some_injective _ he)

theorem stepN_digits_shape (b D : Nat) (hb : 2 ≤ b) (hD : 0 < D) :
    ∀ n k (r : List ℚ), k < b ^ D → r.length = D →
      ∃ k1 r1, k1 < b ^ D ∧ (stepN ⟨b, digitsOf b D k, r⟩ n).2 = ⟨b, digitsOf b D k1, r1⟩
        ∧ r1.length = D
  | 0, k, r, hk, hr => by
    rcases Nat.lt_or_ge (k + 1) (b ^ D) with h1 | h1
    · obtain ⟨v, r2, heq, hlen⟩ := next_digits_lt b D k hb hD h1 r
      refine ⟨k + 1, r2, h1, ?_, by omega⟩
      rw [show stepN ⟨b, digitsOf b D k, r⟩ 0 = next ⟨b, digitsOf b D k, r⟩ from rfl, heq]
    · have hex : k + 1 = b ^ D := by omega
      refine ⟨0, r, Nat.pos_pow_of_pos _ (by omega), ?_, hr⟩
      rw [show stepN ⟨b, digitsOf b D k, r⟩ 0 = next ⟨b, digitsOf b D k, r⟩ from rfl,
        next_digits_exhaust b D k hb hD hex r, digitsOf_zero]
  | n + 1, k, r, hk, hr => by
    rcases Nat.lt_or_ge (k + 1) (b ^ D) with h1 | h1
    · obtain ⟨v, r2, heq, hlen⟩ := next_digits_lt b D k hb hD h1 r
      rw [show stepN ⟨b, digitsOf b D k, r⟩ (n + 1)
          = (match next ⟨b, digitsOf b D k, r⟩ with
             | (none, s1) => (none, s1)
             | (some _, s1) => stepN s1 n) from rfl, heq]
      exact stepN_digits_shape b D hb hD n (k + 1) r2 h1 (by omega)
    · have hex : k + 1 = b ^ D := by omega
      refine ⟨0, r, Nat.pos_pow_of_pos _ (by omega), ?_, hr⟩
      rw [show stepN ⟨b, digitsOf b D k, r⟩ (n + 1)
          = (match next ⟨b, digitsOf b D k, r⟩ with
             | (none, s1) => (none, s1)
             | (some _, s1) => stepN s1 n) from rfl,
        next_digits_exhaust b D k hb hD hex r, digitsOf_zero]

theorem nth_digits_shape (b D : Nat) (hb : 2 ≤ b) (hD : 0 < D) (k : Nat)
    (hk : k < b ^ D) (r : List ℚ) (hr : r.length = D) (n : Nat)
    (p : Option ℚ × GenericSequence)
    (he : nth ⟨b, digitsOf b D k, r⟩ n = some p) :
    ∃ k1 r1, k1 < b ^ D ∧ p.2 = ⟨b, digitsOf b D k1, r1⟩ ∧ r1.length = D := by
  have hfall : stepN ⟨b, digitsOf b D k, r⟩ n = p →
      ∃ k1 r1, k1 < b ^ D ∧ p.2 = ⟨b, digitsOf b D k1, r1⟩ ∧ r1.length = D := by
    intro hsv
    obtain ⟨k1, r1, hk1, hshape, hlen⟩ := stepN_digits_shape b D hb hD n k r hk hr
    exact ⟨k1, r1, hk1, by rw [← hsv]; exact hshape, hlen⟩
  by_cases h50 : 50 < n
  · rcases hpc : (pos ⟨b, digitsOf b D k, r⟩).bind (fun p => checkedAdd n p) with _ | t
    · rw [nth_eq_fallback _ n h50 hpc] at he
      exact hfall (Option.some_injective _ he)
    · rw [nth_eq_direct _ n h50 t hpc] at he
      rw [show (⟨b, digitsOf b D k, r⟩ : GenericSequence).b = b from rfl,
        show (⟨b, digitsOf b D k, r⟩ : GenericSequence).d.length = D from
          length_digitsOf b D k,
        show (⟨b, digitsOf b D k, r⟩ : GenericSequence).r.length = D from hr] at he
      rw [decompLoop_replicate b hb D t] at he
      by_cases ht : t < b ^ D
      · rw [if_pos ⟨by omega, ht⟩] at he
        rw [List.length_replicate] at he
        dsimp only [] at he
        rw [rebuild_replicate b hb D t hD ht] at he
        have he2 : next (mkState b D t) = p := Option.some_injective _ he
        rcases Nat.lt_or_ge (t + 1) (b ^ D) with h1 | h1
        · rw [next_mkState_lt b D t hb hD h1] at he2
          exact ⟨t + 1, rlist b D (t + 1), h1, by rw [← he2]; rfl, length_rlist b D (t + 1)⟩
        · have hex : t + 1 = b ^ D := by omega
          rw [next_mkState_exhaust b D t hb hD hex] at he2
          refine ⟨0, rlist b D t, Nat.pos_pow_of_pos _ (by omega), ?_, length_rlist b D t⟩
          rw [← he2, digitsOf_zero]
      · rw [if_neg (by omega)] at he
        exact absurd he (by simp)
  · rw [nth_eq_small _ n h50] at he
    exact hfall (Option.some_injective _ he)

/-! ## Reachability characterizations -/

theorem reach_shape (b D : Nat) (hb : 2 ≤ b) (hD : 0 < D) :
    ∀ s, Reach D b s → ∃ k r, k < b ^ D ∧ s = ⟨b, digitsOf b D k, r⟩ ∧ r.length = D := by
  intro s h
  induction h with
  | base =>
    refine ⟨0, List.replicate D 0, Nat.pos_pow_of_pos _ (by omega), ?_,
      List.length_replicate ..⟩
    rw [new, digitsOf_zero]
  | step hs ih =>
    obtain ⟨k, r, hk, rfl, hr⟩ := ih
    rcases Nat.lt_or_ge (k + 1) (b ^ D) with h1 | h1
    · obtain ⟨v, r2, heq, hlen⟩ := next_digits_lt b D k hb hD h1 r
      exact ⟨k + 1, r2, h1, by rw [heq], by omega⟩
    · have hex : k + 1 = b ^ D := by omega
      refine ⟨0, r, Nat.pos_pow_of_pos _ (by omega), ?_, hr⟩
      rw [next_digits_exhaust b D k hb hD hex r, digitsOf_zero]
  | jump hs he ih =>
    obtain ⟨k, r, hk, rfl, hr⟩ := ih
    obtain ⟨k1, r1, hk1, hshape, hlen⟩ := nth_digits_shape b D hb hD k hk r hr _ _ he
    exact ⟨k1, r1, hk1, hshape, hlen⟩

theorem reachOk_mkState (b D : Nat) (hb : 2 ≤ b) (hD : 0 < D) :
    ∀ s, ReachOk D b s → ∃ k, k < b ^ D ∧ s = mkState b D k := by
  intro s h
  induction h with
  | base =>
    exact ⟨0, Nat.pos_pow_of_pos _ (by omega), new_eq_mkState D b⟩
  | step hs heq ih =>
    obtain ⟨k, hk, rfl⟩ := ih
    rcases Nat.lt_or_ge (k + 1) (b ^ D) with h1 | h1
    · rw [next_mkState_lt b D k hb hD h1] at heq
      exact ⟨k + 1, h1, (congrArg Prod.snd heq).symm⟩
    · have hex : k + 1 = b ^ D := by omega
      rw [next_mkState_exhaust b D k hb hD hex] at heq
      exact absurd (congrArg Prod.fst heq) (by simp)
  | jump hs heq ih =>
    obtain ⟨k, hk, rfl⟩ := ih
    obtain ⟨k1, hk1, hk1eq⟩ := nth_mkState_some b D hb hD k hk _ _ _ heq
    exact ⟨k1, hk1, hk1eq⟩

/-! ## What the exhausting step leaves behind -/

/-- Unfolding of `next` when the carry loop runs off the end. -/
theorem next_carry_none_eq (bb : Nat) (dd : List Nat) (rr : List ℚ) (d2 : List Nat)
    (hcond : (dd.set 0 (dd.getD 0 0 + 1)).getD 0 0 = bb)
    (hcl : carryLoop bb (dd.set 0 (dd.getD 0 0 + 1)) 0
        (dd.set 0 (dd.getD 0 0 + 1)).length = (d2, none)) :
    next ⟨bb, dd, rr⟩ = (none, ⟨bb, d2, rr⟩) := by
  simp only [next]
  rw [if_pos hcond, hcl]

/-- If the carry loop runs off the end then every digit it leaves behind is
zero. -/
theorem carryLoop_none_zero (b : Nat) :
    ∀ (fuel : Nat) (d : List Nat) (l : Nat), l < d.length → d.length - l ≤ fuel →
      (∀ i, i < l → d.getD i 0 = 0) →
      ∀ d2, carryLoop b d l fuel = (d2, none) → d2 = List.replicate d.length 0
  | 0, d, l, hl, hf, hz, d2, he => absurd hf (by omega)
  | fuel + 1, d, l, hl, hf, hz, d2, he => by
    rw [carryLoop_succ] at he
    have hlen1 : (d.set l 0).length = d.length := List.length_set d l 0
    by_cases hll : l + 1 = (d.set l 0).length
    · rw [if_pos hll] at he
      have hd2 : d2 = d.set l 0 := (congrArg Prod.fst he).symm
      subst hd2
      apply list_ext_getD 0
      · rw [hlen1, List.length_replicate]
      · intro i
        rcases Nat.lt_trichotomy i l with hi | hi | hi
        · rw [getD_set_ne 0 0 d l i (by omega), hz i hi,
            getD_replicate 0 0 d.length i (by omega)]
        · subst hi
          rw [getD_set_self 0 0 d i hl, getD_replicate 0 0 d.length i hl]
        · rw [List.getD_eq_default _ _ (by rw [hlen1]; omega),
            List.getD_eq_default _ _ (by rw [List.length_replicate]; omega)]
    · rw [if_neg hll] at he
      by_cases hcond : ((d.set l 0).set (l + 1) ((d.set l 0).getD (l + 1) 0 + 1)).getD
          (l + 1) 0 = b
      · rw [if_pos hcond] at he
        have hlen2 : ((d.set l 0).set (l + 1)
            ((d.set l 0).getD (l + 1) 0 + 1)).length = d.length := by
          rw [List.length_set, hlen1]
        have hres := carryLoop_none_zero b fuel _ (l + 1)
          (by rw [hlen2]; omega) (by rw [hlen2]; omega) ?_ d2 he
        · rw [hlen2] at hres
          exact hres
        · intro i hi
          rcases Nat.lt_or_ge i l with hil | hil
          · rw [getD_set_ne 0 _ _ (l + 1) i (by omega),
              getD_set_ne 0 0 d l i (by omega)]
            exact hz i hil
          · have hieq : i = l := by omega
            rw [getD_set_ne 0 _ _ (l + 1) i (by omega), hieq]
            exact getD_set_self 0 0 d l (by omega)
      · rw [if_neg hcond] at he
        exact absurd (congrArg Prod.snd he) (by simp)

/-- The step that signals exhaustion zeroes the digits, keeps the cache, and
the following step produces a value again (for any base at least 2). -/
theorem next_none_resets (bb : Nat) (dd : List Nat) (rr : List ℚ) (hb : 2 ≤ bb)
    (h : (next ⟨bb, dd, rr⟩).1 = none) :
    (next ⟨bb, dd, rr⟩).2.d = List.replicate dd.length 0 ∧
      (next ⟨bb, dd, rr⟩).2.r = rr ∧
      ∃ v s2, next ((next ⟨bb, dd, rr⟩).2) = (some v, s2) := by
  by_cases hcond : (dd.set 0 (dd.getD 0 0 + 1)).getD 0 0 = bb
  · rcases hcc : carryLoop bb (dd.set 0 (dd.getD 0 0 + 1)) 0
        (dd.set 0 (dd.getD 0 0 + 1)).length with ⟨d2, ol⟩
    cases ol with
    | some L =>
      rw [next_carry_eq bb dd rr d2 L hcond hcc] at h
      exact absurd h (by simp)
    | none =>
      have heq := next_carry_none_eq bb dd rr d2 hcond hcc
      have hdne : 0 < dd.length := by
        by_contra h0
        have hdd : dd = [] := List.length_eq_zero.1 (by omega)
        subst hdd
        rw [show (([] : List Nat).set 0 (([] : List Nat).getD 0 0 + 1)).getD 0 0 = 0
          from rfl] at hcond
        omega
      have hz := carryLoop_none_zero bb (dd.set 0 (dd.getD 0 0 + 1)).length
        (dd.set 0 (dd.getD 0 0 + 1)) 0 (by rw [List.length_set]; omega)
        (by omega) (fun i hi => absurd hi (Nat.not_lt_zero i)) d2 hcc
      rw [List.length_set] at hz
      obtain ⟨n, hn⟩ : ∃ n, dd.length = n + 1 := ⟨dd.length - 1, by omega⟩
      refine ⟨by rw [heq]; exact hz, by rw [heq], ?_⟩
      rw [heq]
      show ∃ v s2, next ⟨bb, d2, rr⟩ = (some v, s2)
      subst hz
      rw [hn]
      have hset : ((List.replicate (n + 1) (0:Nat)).set 0
          ((List.replicate (n + 1) (0:Nat)).getD 0 0 + 1)) = 1 :: List.replicate n 0 := by
        rw [List.replicate_succ]
        rfl
      have hcond2 : ((List.replicate (n + 1) (0:Nat)).set 0
          ((List.replicate (n + 1) (0:Nat)).getD 0 0 + 1)).getD 0 0 ≠ bb := by
        rw [hset]
        show (1 : Nat) ≠ bb
        omega
      exact ⟨_, _, next_nocarry_eq bb (List.replicate (n + 1) 0) rr hcond2⟩
  · rw [next_nocarry_eq bb dd rr hcond] at h
    exact absurd h (by simp)

/-! ## number agrees with the radical inverse -/

theorem numberLoop_eq (b : Nat) (hb : 2 ≤ b) :
    ∀ i (f r : ℚ), numberLoop b i f r = r + f * radInv b i := by
  intro i
  induction i using Nat.strong_induction_on with
  | _ i ih =>
    intro f r
    by_cases hi : i = 0
    · subst hi
      rw [numberLoop, dif_neg (by omega), radInv_zero]
      ring
    · have hb0 : (0:ℚ) < (b : ℚ) := by exact_mod_cast (by omega : 0 < b)
      rw [numberLoop, dif_pos ⟨hb, hi⟩]
      rw [ih (i / b) (Nat.div_lt_self (Nat.pos_of_ne_zero hi) hb)]
      rw [radInv_eq b i hb]
      field_simp
      ring

theorem number_eq_radInv (b : Nat) (hb : 2 ≤ b) (i : Nat) : number b i = radInv b i := by
  rw [number, numberLoop_eq b hb i 1 0]
  ring

theorem numberFuel_eq (b : Nat) (hb : 2 ≤ b) :
    ∀ fuel i (f r : ℚ), i ≤ fuel → numberFuel b fuel i f r = numberLoop b i f r
  | 0, i, f, r, h => by
    have hi : i = 0 := by omega
    subst hi
    rw [show numberFuel b 0 0 f r = r from rfl, numberLoop, dif_neg (by omega)]
  | fuel + 1, i, f, r, h => by
    by_cases hi : i = 0
    · subst hi
      rw [show numberFuel b (fuel + 1) 0 f r = r from rfl, numberLoop, dif_neg (by omega)]
    · rw [show numberFuel b (fuel + 1) i f r
          = numberFuel b fuel (i / b) (f / b) (r + f / (b:ℚ) * ((i % b : Nat) : ℚ))
          from by rw [numberFuel]; rw [if_neg hi]]
      rw [numberLoop, dif_pos ⟨hb, hi⟩]
      have hlt : i / b < i := Nat.div_lt_self (Nat.pos_of_ne_zero hi) hb
      exact numberFuel_eq b hb fuel (i / b) _ _ (by omega)

/-! ## pos on the fresh state -/

theorem USIZE_pos : 0 < USIZE := Nat.pos_pow_of_pos 64 (by omega)

theorem posLoop_replicate : ∀ (D i : Nat), posLoop (List.replicate D 0) i 0 = some 0
  | 0, i => rfl
  | D + 1, i => by
    rw [List.replicate_succ]
    have h1 : checkedMul 0 i = some 0 := by
      simp only [checkedMul, Nat.zero_mul]
      rw [if_pos USIZE_pos]
    have h2 : checkedAdd 0 0 = some 0 := by
      simp only [checkedAdd, Nat.add_zero]
      rw [if_pos USIZE_pos]
    show (match checkedMul 0 i with
      | none => none
      | some m => match checkedAdd 0 m with
        | none => none
        | some acc2 => posLoop (List.replicate D 0) (i + 1) acc2) = some 0
    rw [h1]
    show (match checkedAdd 0 0 with
      | none => none
      | some acc2 => posLoop (List.replicate D 0) (i + 1) acc2) = some 0
    rw [h2]
    exact posLoop_replicate D (i + 1)

theorem pos_new (D b : Nat) : pos (new D b) = some 0 :=
  posLoop_replicate D 1

/-! ## Concrete radical-inverse values -/

theorem checkedAdd_lt (a c : Nat) (h : a + c < USIZE) : checkedAdd a c = some (a + c) := by
  simp only [checkedAdd]
  rw [if_pos h]

theorem radInv_pow_sub_one (b : Nat) (hb : 2 ≤ b) :
    ∀ D, radInv b (b ^ D - 1) = 1 - (1 / (b : ℚ)) ^ D
  | 0 => by
    rw [show (b ^ 0 - 1 : Nat) = 0 from by norm_num, radInv_zero]
    norm_num
  | D + 1 => by
    have hb0 : 0 < b := by omega
    have hQ : 0 < b ^ D := Nat.pos_pow_of_pos _ hb0
    obtain ⟨Q1, hQ1⟩ : ∃ Q1, b ^ D = Q1 + 1 := ⟨b ^ D - 1, by omega⟩
    have hbq : b * (Q1 + 1) = b * Q1 + b := by ring
    have hk : b ^ (D + 1) - 1 = b * Q1 + (b - 1) := by
      have hp : b ^ (D + 1) = b * (Q1 + 1) := by rw [pow_succ', hQ1]
      omega
    have hmod : (b ^ (D + 1) - 1) % b = b - 1 := by
      rw [hk, Nat.mul_add_mod, Nat.mod_eq_of_lt (by omega)]
    have hdiv : (b ^ (D + 1) - 1) / b = b ^ D - 1 := by
      rw [hk, Nat.mul_add_div hb0, Nat.div_eq_of_lt (by omega), Nat.add_zero]
      omega
    rw [radInv_eq b _ hb, hmod, hdiv, radInv_pow_sub_one b hb D]
    have hbQ : (0:ℚ) < (b : ℚ) := by exact_mod_cast hb0
    have hcast : ((b - 1 : Nat) : ℚ) = (b : ℚ) - 1 := by
      have h1 : (1 : Nat) ≤ b := by omega
      push_cast [h1]
      ring
    rw [hcast]
    field_simp
    ring

theorem radInv2_1 : radInv 2 1 = 1 / 2 := by
  rw [radInv_eq 2 1 (by omega), show (1 % 2 : Nat) = 1 from rfl,
    show (1 / 2 : Nat) = 0 from rfl, radInv_zero]
  norm_num

theorem radInv2_2 : radInv 2 2 = 1 / 4 := by
  rw [radInv_eq 2 2 (by omega), show (2 % 2 : Nat) = 0 from rfl,
    show (2 / 2 : Nat) = 1 from rfl, radInv2_1]
  norm_num

theorem radInv2_3 : radInv 2 3 = 3 / 4 := by
  rw [radInv_eq 2 3 (by omega), show (3 % 2 : Nat) = 1 from rfl,
    show (3 / 2 : Nat) = 1 from rfl, radInv2_1]
  norm_num

theorem radInv2_4 : radInv 2 4 = 1 / 8 := by
  rw [radInv_eq 2 4 (by omega), show (4 % 2 : Nat) = 0 from rfl,
    show (4 / 2 : Nat) = 2 from rfl, radInv2_2]
  norm_num

theorem radInv2_5 : radInv 2 5 = 5 / 8 := by
  rw [radInv_eq 2 5 (by omega), show (5 % 2 : Nat) = 1 from rfl,
    show (5 / 2 : Nat) = 2 from rfl, radInv2_2]
  norm_num

theorem radInv2_6 : radInv 2 6 = 3 / 8 := by
  rw [radInv_eq 2 6 (by omega), show (6 % 2 : Nat) = 0 from rfl,
    show (6 / 2 : Nat) = 3 from rfl, radInv2_3]
  norm_num

theorem radInv2_7 : radInv 2 7 = 7 / 8 := by
  rw [radInv_eq 2 7 (by omega), show (7 % 2 : Nat) = 1 from rfl,
    show (7 / 2 : Nat) = 3 from rfl, radInv2_3]
  norm_num

theorem radInv2_8 : radInv 2 8 = 1 / 16 := by
  rw [radInv_eq 2 8 (by omega), show (8 % 2 : Nat) = 0 from rfl,
    show (8 / 2 : Nat) = 4 from rfl, radInv2_4]
  norm_num

theorem radInv2_9 : radInv 2 9 = 9 / 16 := by
  rw [radInv_eq 2 9 (by omega), show (9 % 2 : Nat) = 1 from rfl,
    show (9 / 2 : Nat) = 4 from rfl, radInv2_4]
  norm_num

theorem radInv2_13 : radInv 2 13 = 11 / 16 := by
  rw [radInv_eq 2 13 (by omega), show (13 % 2 : Nat) = 1 from rfl,
    show (13 / 2 : Nat) = 6 from rfl, radInv2_6]
  norm_num

theorem radInv2_27 : radInv 2 27 = 27 / 32 := by
  rw [radInv_eq 2 27 (by omega), show (27 % 2 : Nat) = 1 from rfl,
    show (27 / 2 : Nat) = 13 from rfl, radInv2_13]
  norm_num

theorem radInv2_55 : radInv 2 55 = 59 / 64 := by
  rw [radInv_eq 2 55 (by omega), show (55 % 2 : Nat) = 1 from rfl,
    show (55 / 2 : Nat) = 27 from rfl, radInv2_27]
  norm_num

theorem radInv2_14 : radInv 2 14 = 7 / 16 := by
  rw [radInv_eq 2 14 (by omega), show (14 % 2 : Nat) = 0 from rfl,
    show (14 / 2 : Nat) = 7 from rfl, radInv2_7]
  norm_num

theorem radInv2_28 : radInv 2 28 = 7 / 32 := by
  rw [radInv_eq 2 28 (by omega), show (28 % 2 : Nat) = 0 from rfl,
    show (28 / 2 : Nat) = 14 from rfl, radInv2_14]
  norm_num

theorem radInv2_56 : radInv 2 56 = 7 / 64 := by
  rw [radInv_eq 2 56 (by omega), show (56 % 2 : Nat) = 0 from rfl,
    show (56 / 2 : Nat) = 28 from rfl, radInv2_28]
  norm_num

theorem radInv3_1 : radInv 3 1 = 1 / 3 := by
  rw [radInv_eq 3 1 (by omega), show (1 % 3 : Nat) = 1 from rfl,
    show (1 / 3 : Nat) = 0 from rfl, radInv_zero]
  norm_num

theorem radInv2_1048575 : radInv 2 1048575 = 1048575 / 1048576 := by
  have h := radInv_pow_sub_one 2 (by omega) 20
  rw [show (2 ^ 20 - 1 : Nat) = 1048575 from by norm_num] at h
  rw [h]
  norm_num

theorem radInv2_524287 : radInv 2 524287 = 524287 / 524288 := by
  have h := radInv_pow_sub_one 2 (by omega) 19
  rw [show (2 ^ 19 - 1 : Nat) = 524287 from by norm_num] at h
  rw [h]
  norm_num

/-! ## The fresh iterator follows mkState -/

theorem iterState_mkState (b D : Nat) (hb : 2 ≤ b) (hD : 0 < D) :
    ∀ n, n < b ^ D → iterState (new D b) n = mkState b D n
  | 0, h => by
    rw [show iterState (new D b) 0 = new D b from rfl, new_eq_mkState]
  | n + 1, h => by
    rw [show iterState (new D b) (n + 1) = (next (iterState (new D b) n)).2 from rfl,
      iterState_mkState b D hb hD n (by omega),
      next_mkState_lt b D n hb hD (by omega)]

/-! ## Symbolic evaluation of the scenario states -/

theorem checkedAdd_ge (a c : Nat) (h : USIZE ≤ a + c) : checkedAdd a c = none := by
  simp only [checkedAdd]
  rw [if_neg (by omega)]

theorem nth_direct_mkState (b D k n t : Nat) (hb : 2 ≤ b) (hD : 0 < D)
    (h50 : 50 < n) (hpc : (pos (mkState b D k)).bind (fun p => checkedAdd n p) = some t)
    (ht : t < b ^ D) (ht1 : t + 1 < b ^ D) :
    nth (mkState b D k) n = some (some (radInv b (t + 1)), mkState b D (t + 1)) := by
  rw [nth_eq_direct _ n h50 t hpc]
  rw [show (mkState b D k).b = b from rfl,
    show (mkState b D k).d.length = D from length_digitsOf b D k,
    show (mkState b D k).r.length = D from length_rlist b D k]
  rw [decompLoop_replicate b hb D t, if_pos ⟨by omega, ht⟩]
  rw [List.length_replicate]
  dsimp only []
  rw [rebuild_replicate b hb D t hD ht]
  rw [show (⟨b, digitsOf b D t, rlist b D t⟩ : GenericSequence) = mkState b D t from rfl]
  rw [next_mkState_lt b D t hb hD ht1]

theorem fresh2_eq : fresh2 = mkState 2 20 0 := new_eq_mkState 20 2

theorem fresh3_eq : fresh3 = mkState 3 20 0 := new_eq_mkState 20 3

theorem nth_fresh2_jump :
    nth fresh2 1048574 = some (some (radInv 2 1048575), mkState 2 20 1048575) := by
  have hpos : pos (mkState 2 20 0) = some 0 := by
    rw [show mkState 2 20 0 = new 20 2 from (new_eq_mkState 20 2).symm]
    exact pos_new 20 2
  have hpc : (pos (mkState 2 20 0)).bind (fun p => checkedAdd 1048574 p)
      = some 1048574 := by
    rw [hpos]
    rw [show (some 0).bind (fun p => checkedAdd 1048574 p) = checkedAdd 1048574 0 from rfl,
      checkedAdd_lt 1048574 0 (by norm_num [USIZE])]
  have h := nth_direct_mkState 2 20 0 1048574 1048574 (by omega) (by omega) (by omega)
    hpc (by norm_num) (by norm_num)
  rw [fresh2_eq, h, show (1048574 + 1 : Nat) = 1048575 from rfl]

theorem atMax_eq : atMax = mkState 2 20 1048575 := by
  rw [show atMax = ((nth fresh2 1048574).getD (none, fresh2)).2 from rfl, nth_fresh2_jump]
  rfl

theorem next_atMax : next atMax = (none, ⟨2, List.replicate 20 0, rlist 2 20 1048575⟩) := by
  rw [atMax_eq]
  exact next_mkState_exhaust 2 20 1048575 (by omega) (by omega) (by norm_num)

theorem afterExhaust_eq : afterExhaust = ⟨2, List.replicate 20 0, rlist 2 20 1048575⟩ := by
  rw [show afterExhaust = (next atMax).2 from rfl, next_atMax]

theorem next_afterExhaust : (next afterExhaust).1 = some (1048575 / 1048576 : ℚ) := by
  rw [afterExhaust_eq]
  have hcond : ((List.replicate 20 (0:Nat)).set 0
      ((List.replicate 20 (0:Nat)).getD 0 0 + 1)).getD 0 0 ≠ 2 := by decide
  rw [next_nocarry_eq 2 (List.replicate 20 0) (rlist 2 20 1048575) hcond]
  dsimp only []
  rw [show ((List.replicate 20 (0:Nat)).set 0
      ((List.replicate 20 (0:Nat)).getD 0 0 + 1)).getD 0 0 = 1 from by decide]
  rw [rlist_getD 2 20 1048575 0 (by omega)]
  rw [show (1048575 / 2 ^ (0 + 1) : Nat) = 524287 from by norm_num]
  rw [radInv2_524287]
  norm_num

theorem stepN_fresh2 (j : Nat) (h : j + 1 < 2 ^ 20) :
    (stepN fresh2 j).1 = some (radInv 2 (j + 1)) := by
  have h0 := stepN_mkState 2 20 (by omega) (by omega) j 0 (by omega)
  rw [fresh2_eq, h0]
  rw [show (0 + j + 1 : Nat) = j + 1 from by omega]

theorem stepN_fresh3_0 : (stepN fresh3 0).1 = some (radInv 3 1) := by
  have h0 := stepN_mkState 3 20 (by omega) (by omega) 0 0
    (by norm_num)
  rw [fresh3_eq, h0]

theorem s4_eq : iterState fresh2 4 = mkState 2 20 4 :=
  iterState_mkState 2 20 (by omega) (by omega) 4 (by norm_num)

theorem pos_s4 : pos (mkState 2 20 4) = some 3 := rfl

theorem nth_s4_51 :
    nth (mkState 2 20 4) 51 = some (some (radInv 2 55), mkState 2 20 55) := by
  have hpc : (pos (mkState 2 20 4)).bind (fun p => checkedAdd 51 p) = some 54 := by
    rw [pos_s4]
    rw [show (some 3).bind (fun p => checkedAdd 51 p) = checkedAdd 51 3 from rfl,
      checkedAdd_lt 51 3 (by norm_num [USIZE])]
  have h := nth_direct_mkState 2 20 4 51 54 (by omega) (by omega) (by omega)
    hpc (by norm_num) (by norm_num)
  rw [h, show (54 + 1 : Nat) = 55 from rfl]

theorem stepN_s4_51 : (stepN (mkState 2 20 4) 51).1 = some (radInv 2 56) := by
  have h0 := stepN_mkState 2 20 (by omega) (by omega) 51 4 (by norm_num)
  rw [h0, show (4 + 51 + 1 : Nat) = 56 from rfl]

/-! ## Claim theorems -/

/-- C1 counterexample: exhaustion is not stable. On the default base-2
sequence, jumping to the last index yields the last value, the following
`next` signals exhaustion, and the `next` after that produces a value again
(the digits were reset to zero while the stale cache was kept). -/
theorem c1_counterexample :
    (nth fresh2 1048574).map Prod.fst = some (some (1048575 / 1048576 : ℚ)) ∧
    (next atMax).1 = none ∧
    (next afterExhaust).1 = some (1048575 / 1048576 : ℚ) := by
  refine ⟨?_, by rw [next_atMax], next_afterExhaust⟩
  rw [nth_fresh2_jump, Option.map_some']
  dsimp only []
  rw [radInv2_1048575]

/-- C1 (amended): a step yields no value exactly when the increment carries
past the top digit, but exhaustion is not terminal: the exhausting step
leaves every digit zero and the cache untouched, and the immediately
following step yields a value again. -/
theorem c1_exhaustion_resets (s : GenericSequence) (hb : 2 ≤ s.b)
    (h : (next s).1 = none) :
    (next s).2.d = List.replicate s.d.length 0 ∧
      (next s).2.r = s.r ∧
      ∃ v s2, next ((next s).2) = (some v, s2) := by
  obtain ⟨bb, dd, rr⟩ := s
  exact next_none_resets bb dd rr hb h

/-- C1 witness: the amended statement at the two-digit base-2 state with both
digits at their maximum, whose step signals exhaustion. -/
theorem c1_witness :
    2 ≤ (⟨2, [1, 1], [0, 0]⟩ : GenericSequence).b ∧
    (next (⟨2, [1, 1], [0, 0]⟩ : GenericSequence)).1 = none ∧
    ((next (⟨2, [1, 1], [0, 0]⟩ : GenericSequence)).2.d = List.replicate 2 0 ∧
      (next (⟨2, [1, 1], [0, 0]⟩ : GenericSequence)).2.r = ([0, 0] : List ℚ) ∧
      ∃ v s2, next ((next (⟨2, [1, 1], [0, 0]⟩ : GenericSequence)).2) = (some v, s2)) :=
  ⟨by decide, rfl, c1_exhaustion_resets ⟨2, [1, 1], [0, 0]⟩ (by decide) rfl⟩

/-- C2 evaluation at the failing input: `pos` weighs digit `d[i]` by `i + 1`
instead of `base ^ i`, so after the 4th successful step of a fresh default
base-2 sequence (digits `[0,0,1,0,…]`, true position 4, miscomputed position
3) `remaining` reports 1048572, the same value as after 3 steps — it fails to
decrease across a successful step and overcounts the remaining steps by 1. -/
theorem c2_remaining_eval :
    remaining (iterState fresh2 3) = some 1048572 ∧
    (next (iterState fresh2 3)).1.isSome = true ∧
    remaining (iterState fresh2 4) = some 1048572 :=
  ⟨rfl, rfl, rfl⟩

/-- C3: the incremental generator agrees with the direct computation: for
every base at least 2 and digit depth at least 1, stepping a fresh generator
`k` times (1 ≤ k ≤ Base^D − 1) succeeds and the `k`-th produced value equals
`number base k`; in particular the first step equals `number base 1`. -/
theorem c3_generator_agrees_with_number (b D k : Nat) (hb : 2 ≤ b) (hD : 0 < D)
    (h1 : 1 ≤ k) (h2 : k ≤ b ^ D - 1) :
    (stepN (new D b) (k - 1)).1 = some (number b k) := by
  have hpow : 0 < b ^ D := Nat.pos_pow_of_pos _ (by omega)
  have hk : k < b ^ D := by omega
  have h0 := stepN_mkState b D hb hD (k - 1) 0 (by omega)
  rw [new_eq_mkState, h0, show (0 + (k - 1) + 1 : Nat) = k from by omega,
    number_eq_radInv b hb k]

/-- C3 witness: base 2 with depth 3, k = 3. -/
theorem c3_witness :
    2 ≤ 2 ∧ 1 ≤ 3 ∧ 3 ≤ 2 ^ 3 - 1 ∧ (stepN (new 3 2) 2).1 = some (number 2 3) :=
  ⟨by omega, by omega, by norm_num,
    c3_generator_agrees_with_number 2 3 3 (by omega) (by omega) (by omega) (by norm_num)⟩

/-- C4 evaluation at the failing input: after 4 successful steps of a fresh
default base-2 sequence, `nth 51` uses the miscomputed position 3 (instead of
4), jumps to index 54 and returns the value of index 55 (59/64), while 52
plain `next` calls on an identical copy return the value of index 56 (7/64). -/
theorem c4_nth_divergence_eval :
    (stepN fresh2 3).1 = some (1 / 8 : ℚ) ∧
    (nth (iterState fresh2 4) 51).map Prod.fst = some (some (59 / 64 : ℚ)) ∧
    (stepN (iterState fresh2 4) 51).1 = some (7 / 64 : ℚ) := by
  refine ⟨?_, ?_, ?_⟩
  · rw [stepN_fresh2 3 (by norm_num), radInv2_4]
  · rw [s4_eq, nth_s4_51, Option.map_some']
    dsimp only []
    rw [radInv2_55]
  · rw [s4_eq, stepN_s4_51, radInv2_56]

/-- C5 evaluation at the failing inputs: jumping a fresh default base-2
sequence past the last representable index panics with an out-of-bounds digit
write (modelled as the outer `none`) instead of reporting overflow
recoverably; the boundary jump to the last index still returns normally; and
when `pos + n` overflows the 64-bit position width, `nth` silently falls back
to stepping and returns the ordinary exhaustion signal, not a distinct
overflow report. -/
theorem c5_nth_overflow_eval :
    nth fresh2 1048576 = none ∧
    (nth fresh2 1048575).isSome = true ∧
    (nth (iterState fresh2 4) (2 ^ 64 - 2)).map Prod.fst = some none := by
  refine ⟨rfl, rfl, ?_⟩
  rw [s4_eq]
  have hpc : (pos (mkState 2 20 4)).bind (fun p => checkedAdd (2 ^ 64 - 2) p) = none := by
    rw [pos_s4]
    rw [show (some 3).bind (fun p => checkedAdd (2 ^ 64 - 2) p)
        = checkedAdd (2 ^ 64 - 2) 3 from rfl,
      checkedAdd_ge (2 ^ 64 - 2) 3 (by norm_num [USIZE])]
  rw [nth_eq_fallback _ _ (by norm_num) hpc, Option.map_some']
  have hnone := stepN_digits_none 2 20 (by omega) (by omega) (2 ^ 64 - 2) 4
    (rlist 2 20 4) (by norm_num) (by norm_num)
  rw [show (stepN (mkState 2 20 4) (2 ^ 64 - 2)).1
      = (stepN ⟨2, digitsOf 2 20 4, rlist 2 20 4⟩ (2 ^ 64 - 2)).1 from rfl, hnone]

/-- C6 counterexample: construction performs no base validation. `new` with
base 1 (below 2) returns an ordinary zero-initialized generator — whose first
step immediately signals exhaustion — instead of failing at construction. -/
theorem c6_counterexample :
    new 20 1 = ⟨1, List.replicate 20 0, List.replicate 20 0⟩ ∧
    pos (new 20 1) = some 0 ∧
    (next (new 20 1)).1 = none :=
  ⟨rfl, pos_new 20 1, rfl⟩

/-- C6 (amended): `new` never rejects any base: for every base, including
bases below 2, it returns the generator with all digits and all partial sums
zero, whose derived position is 0; base ≥ 2 is an unchecked caller
obligation, not a construction-time check. -/
theorem c6_new_unvalidated (D bb : Nat) :
    new D bb = ⟨bb, List.replicate D 0, List.replicate D 0⟩ ∧
    pos (new D bb) = some 0 ∧
    (∀ x ∈ (new D bb).d, x = 0) ∧
    (∀ x ∈ (new D bb).r, x = 0) :=
  ⟨rfl, pos_new D bb,
    fun x hx => List.eq_of_mem_replicate hx,
    fun x hx => List.eq_of_mem_replicate hx⟩

/-- C7 counterexample: the cache invariant fails on a reachable state. After
jumping a fresh default base-2 sequence to the last index (a value-returning
call) and stepping once more (the exhaustion signal), all digits are zero but
the cache keeps its old contents: `r[0] = 524287/524288`, while the
recurrence demands `r[0] = (d[1] + r[1]) / base`. -/
theorem c7_counterexample :
    (nth fresh2 1048574).isSome = true ∧
    (next atMax).1 = none ∧
    afterExhaust.d = List.replicate 20 0 ∧
    afterExhaust.r.getD 0 0 = 524287 / 524288 ∧
    afterExhaust.r.getD 0 0 ≠
      ((afterExhaust.d.getD 1 0 : ℚ) + afterExhaust.r.getD 1 0)
        / (afterExhaust.b : ℚ) := by
  refine ⟨rfl, by rw [next_atMax], by rw [afterExhaust_eq], ?_, ?_⟩
  · rw [afterExhaust_eq]
    dsimp only []
    rw [rlist_getD 2 20 1048575 0 (by omega),
      show (1048575 / 2 ^ (0 + 1) : Nat) = 524287 from by norm_num, radInv2_524287]
  · rw [afterExhaust_eq]
    dsimp only []
    rw [rlist_getD 2 20 1048575 0 (by omega),
      show (1048575 / 2 ^ (0 + 1) : Nat) = 524287 from by norm_num, radInv2_524287]
    rw [show (List.replicate 20 (0:Nat)).getD 1 0 = 0 from rfl]
    rw [rlist_getD 2 20 1048575 1 (by omega),
      show (1048575 / 2 ^ (1 + 1) : Nat) = 262143 from by norm_num]
    have h := radInv_pow_sub_one 2 (by omega) 18
    rw [show (2 ^ 18 - 1 : Nat) = 262143 from by norm_num] at h
    rw [h]
    norm_num

/-- C7 (amended): on every state reached through value-returning operations,
every digit is below the base, the cache satisfies the recurrence
`r[i] = (d[i+1] + r[i+1]) / base` with zero contribution above the top digit,
and a successful step produces `(d[0] + r[0]) / base` for the updated state.
(The exhausting step breaks the cache consistency: it zeroes the digits but
keeps the stale cache, as the counterexample shows.) -/
theorem c7_invariants (b D : Nat) (s : GenericSequence) (hb : 2 ≤ b) (hD : 0 < D)
    (hs : ReachOk D b s) :
    (∀ i, i < D → s.d.getD i 0 < b) ∧
    (∀ i, i + 1 < D → s.r.getD i 0
        = ((s.d.getD (i + 1) 0 : ℚ) + s.r.getD (i + 1) 0) / (b : ℚ)) ∧
    s.r.getD (D - 1) 0 = 0 ∧
    (∀ v, (next s).1 = some v →
      v = (((next s).2.d.getD 0 0 : ℚ) + (next s).2.r.getD 0 0) / (b : ℚ)) := by
  obtain ⟨k, hk, rfl⟩ := reachOk_mkState b D hb hD s hs
  refine ⟨?_, ?_, ?_, ?_⟩
  · intro i hi
    rw [show (mkState b D k).d = digitsOf b D k from rfl, digitsOf_getD b D k i hi]
    exact Nat.mod_lt _ (by omega)
  · intro i hi
    rw [show (mkState b D k).r = rlist b D k from rfl,
      show (mkState b D k).d = digitsOf b D k from rfl,
      rlist_getD b D k i (by omega), rlist_getD b D k (i + 1) hi,
      digitsOf_getD b D k (i + 1) hi]
    rw [radInv_eq b (k / b ^ (i + 1)) hb]
    rw [show (k / b ^ (i + 1) / b : Nat) = k / b ^ (i + 2) from by
      rw [Nat.div_div_eq_div_mul, ← pow_succ]]
  · rw [show (mkState b D k).r = rlist b D k from rfl,
      rlist_getD b D k (D - 1) (by omega),
      show D - 1 + 1 = D from by omega, Nat.div_eq_of_lt hk, radInv_zero]
  · intro v hv
    rcases Nat.lt_or_ge (k + 1) (b ^ D) with h1 | h1
    · rw [next_mkState_lt b D k hb hD h1] at hv ⊢
      have hveq : v = radInv b (k + 1) := (Option.some_injective _ hv).symm
      subst hveq
      dsimp only []
      rw [show (mkState b D (k + 1)).d = digitsOf b D (k + 1) from rfl,
        show (mkState b D (k + 1)).r = rlist b D (k + 1) from rfl]
      rw [digitsOf_getD b D (k + 1) 0 hD, rlist_getD b D (k + 1) 0 hD]
      rw [pow_zero, Nat.div_one, pow_one]
      exact radInv_eq b (k + 1) hb
    · have hex : k + 1 = b ^ D := by omega
      rw [next_mkState_exhaust b D k hb hD hex] at hv
      exact absurd hv (by simp)

/-- C7 witness: the amended invariants at the fresh base-2 generator with
digit depth 3. -/
theorem c7_witness :
    (0 : Nat) < 3 ∧ ((∀ i, i < 3 → (new 3 2).d.getD i 0 < 2) ∧
      (∀ i, i + 1 < 3 → (new 3 2).r.getD i 0
          = (((new 3 2).d.getD (i + 1) 0 : ℚ) + (new 3 2).r.getD (i + 1) 0)
            / ((2 : Nat) : ℚ)) ∧
      (new 3 2).r.getD (3 - 1) 0 = 0 ∧
      (∀ v, (next (new 3 2)).1 = some v →
        v = (((next (new 3 2)).2.d.getD 0 0 : ℚ)
            + (next (new 3 2)).2.r.getD 0 0) / ((2 : Nat) : ℚ))) :=
  ⟨by omega, c7_invariants 2 3 (new 3 2) (by omega) (by omega) ReachOk.base⟩

/-- C8: range of the direct radical-inverse function: `number b 0` is exactly
0, and for every index at least 1 the value is strictly between 0 and 1. -/
theorem c8_number_range (b i : Nat) (hb : 2 ≤ b) :
    number b 0 = 0 ∧ (1 ≤ i → 0 < number b i ∧ number b i < 1) := by
  constructor
  · rw [number_eq_radInv b hb 0, radInv_zero]
  · intro hi
    rw [number_eq_radInv b hb i]
    exact ⟨radInv_pos b hb i hi, radInv_lt_one b hb i⟩

/-- C8 witness: base 3 at index 5. -/
theorem c8_witness :
    2 ≤ 3 ∧ 1 ≤ 5 ∧ number 3 0 = 0 ∧ 0 < number 3 5 ∧ number 3 5 < 1 :=
  ⟨by omega, by omega, (c8_number_range 3 5 (by omega)).1,
    ((c8_number_range 3 5 (by omega)).2 (by omega)).1,
    ((c8_number_range 3 5 (by omega)).2 (by omega)).2⟩

/-- C9: concrete scenarios for the default depth-20 sequences, in exact
rational arithmetic. The first nine base-2 values are 1/2, 1/4, 3/4, 1/8,
5/8, 3/8, 7/8, 1/16, 9/16; `nth 8` on a fresh sequence also gives 9/16;
`nth 1048574` gives the last value 1048575/1048576 (whose shortest f64
round-trip print is the quoted 0.9999990463256836, within 10^-15) and the
step after it yields no value; the first base-3 value is 1/3 (printed
0.3333333333333333, within 10^-15). -/
theorem c9_concrete_scenarios :
    (stepN fresh2 0).1 = some (1 / 2 : ℚ) ∧
    (stepN fresh2 1).1 = some (1 / 4 : ℚ) ∧
    (stepN fresh2 2).1 = some (3 / 4 : ℚ) ∧
    (stepN fresh2 3).1 = some (1 / 8 : ℚ) ∧
    (stepN fresh2 4).1 = some (5 / 8 : ℚ) ∧
    (stepN fresh2 5).1 = some (3 / 8 : ℚ) ∧
    (stepN fresh2 6).1 = some (7 / 8 : ℚ) ∧
    (stepN fresh2 7).1 = some (1 / 16 : ℚ) ∧
    (stepN fresh2 8).1 = some (9 / 16 : ℚ) ∧
    (nth fresh2 8).map Prod.fst = some (some (9 / 16 : ℚ)) ∧
    (nth fresh2 1048574).map Prod.fst = some (some (1048575 / 1048576 : ℚ)) ∧
    (next atMax).1 = none ∧
    abs ((1048575 / 1048576 : ℚ) - 9999990463256836 / 10 ^ 16) < 1 / 10 ^ 15 ∧
    (stepN fresh3 0).1 = some (1 / 3 : ℚ) ∧
    abs ((1 / 3 : ℚ) - 3333333333333333 / 10 ^ 16) < 1 / 10 ^ 15 := by
  refine ⟨?_, ?_, ?_, ?_, ?_, ?_, ?_, ?_, ?_, ?_, ?_, by rw [next_atMax], ?_, ?_, ?_⟩
  · rw [stepN_fresh2 0 (by norm_num), radInv2_1]
  · rw [stepN_fresh2 1 (by norm_num), radInv2_2]
  · rw [stepN_fresh2 2 (by norm_num), radInv2_3]
  · rw [stepN_fresh2 3 (by norm_num), radInv2_4]
  · rw [stepN_fresh2 4 (by norm_num), radInv2_5]
  · rw [stepN_fresh2 5 (by norm_num), radInv2_6]
  · rw [stepN_fresh2 6 (by norm_num), radInv2_7]
  · rw [stepN_fresh2 7 (by norm_num), radInv2_8]
  · rw [stepN_fresh2 8 (by norm_num), radInv2_9]
  · rw [nth_eq_small fresh2 8 (by omega), Option.map_some']
    rw [stepN_fresh2 8 (by norm_num), radInv2_9]
  · rw [nth_fresh2_jump, Option.map_some']
    dsimp only []
    rw [radInv2_1048575]
  · rw [abs_sub_lt_iff]
    constructor <;> norm_num
  · rw [stepN_fresh3_0, radInv3_1]
  · rw [abs_sub_lt_iff]
    constructor <;> norm_num

/-- C10: every operation terminates: the `number` loop needs at most `index`
iterations (the fueled loop with enough fuel equals the unbounded loop), and
from every reachable generator state the step iteration reaches the
exhaustion signal within `Base ^ D` calls — so `next`, the `nth` fallback
loop, and the folds behind `count` and `last` always stop. -/
theorem c10_termination :
    (∀ (b i : Nat) (f r : ℚ) (fuel : Nat), 2 ≤ b → i ≤ fuel →
        numberFuel b fuel i f r = numberLoop b i f r) ∧
    (∀ (b D : Nat) (s : GenericSequence), 2 ≤ b → 0 < D → Reach D b s →
        (stepN s (b ^ D - 1)).1 = none) := by
  constructor
  · intro b i f r fuel hb hle
    exact numberFuel_eq b hb fuel i f r hle
  · intro b D s hb hD hs
    obtain ⟨k, r, hk, rfl, hr⟩ := reach_shape b D hb hD s hs
    have hpow : 0 < b ^ D := Nat.pos_pow_of_pos _ (by omega)
    exact stepN_digits_none b D hb hD (b ^ D - 1) k r hk (by omega)

/-- C10 witness: the fueled number loop at base 2 index 3 with fuel 5, and
exhaustion of the depth-1 base-2 generator within 2^1 − 1 further steps from
a fresh state. -/
theorem c10_witness :
    2 ≤ 2 ∧ (3 : Nat) ≤ 5 ∧ numberFuel 2 5 3 1 0 = numberLoop 2 3 1 0 ∧
    (stepN (new 1 2) (2 ^ 1 - 1)).1 = none :=
  ⟨by omega, by omega, c10_termination.1 2 3 1 0 5 (by omega) (by omega),
    c10_termination.2 2 1 (new 1 2) (by omega) (by omega) Reach.base⟩

end Halton
